import Mathlib

/-!
Verification of the html2md output-tree transformation pipeline
(repository xcd0/html2md, file main.go).

Strings are modelled as lists of characters (Go strings are byte/rune
sequences; all claims below involve ASCII data, where the two views
agree).  Each definition in this file is a shallow embedding of the Go
function of the same (or closely related) name from main.go.
-/

namespace Html2Md

/-- A string, modelled as a list of characters. -/
abbrev Str := List Char

/-- Characters of a Lean string literal, used to write `Str` values readably. -/
def strD (s : String) : Str := s.data

/-- Go strings.HasSuffix: whether suffix is a suffix of s. -/
def hasSuffixB (s suffix : Str) : Bool := suffix.isSuffixOf s

/-- Go strings.TrimSuffix: removes suffix from the end of s when present,
otherwise returns s unchanged. -/
def trimSuffix (s suffix : Str) : Str :=
  if hasSuffixB s suffix then s.take (s.length - suffix.length) else s

/-- The source document extension ".html". -/
def htmlExt : Str := strD ".html"

/-- The target document extension ".md". -/
def mdExt : Str := strD ".md"

/-- The document-extension swap performed by ConvertSingleHtmlFile
(main.go lines 283-284) and by the link rewriter ConvertHtmlLinksToMd
(lines 386-390): strip a trailing ".html", then strip a trailing ".md",
then append ".md". -/
def swapExtMd (s : Str) : Str :=
  trimSuffix (trimSuffix s htmlExt) mdExt ++ mdExt

/-- Go strings.HasPrefix: whether pre is a prefix of s. -/
def hasPrefixB (s pre : Str) : Bool := pre.isPrefixOf s

/-- Go strings.ToLower.  Go lowercases full Unicode; Lean Char.toLower
lowercases exactly the ASCII range, which agrees with Go on all ASCII
input, the only input exercised by the claims. -/
def toLowerStr (s : Str) : Str := s.map Char.toLower

/-- The calls strings.ReplaceAll(s, BACKSLASH, "/") in main.go; replacing
a one-character pattern is a character-wise map. -/
def replaceBackslash (s : Str) : Str :=
  s.map (fun c => if c = '\\' then '/' else c)

/-- Go strings.Split(s, "/") (for a one-character separator). -/
def splitOnChar (sep : Char) : Str → List Str
  | [] => [[]]
  | c :: rest =>
    let r := splitOnChar sep rest
    if c = sep then [] :: r
    else
      match r with
      | [] => [[c]]
      | h :: t => (c :: h) :: t

/-- Go strings.Join(parts, "/"). -/
def joinSlash (parts : List Str) : Str := List.intercalate (strD "/") parts

/-- Segment-processing loop of Go path.Clean: empty and "." segments are
dropped, ".." pops the previous segment when one is available (a rooted
path drops an unmatched "..", a relative path keeps it), and ordinary
segments are appended. -/
def cleanLoop (rooted : Bool) : List Str → List Str → List Str
  | acc, [] => acc
  | acc, seg :: rest =>
    if seg = [] ∨ seg = strD "." then cleanLoop rooted acc rest
    else if seg = strD ".." then
      (if acc ≠ [] ∧ acc.getLast? ≠ some (strD "..") then
        cleanLoop rooted acc.dropLast rest
      else if rooted then cleanLoop rooted acc rest
      else cleanLoop rooted (acc ++ [seg]) rest)
    else cleanLoop rooted (acc ++ [seg]) rest

/-- Go path.Clean (equal to filepath.Clean on slash-separated paths,
the form the rewriter produces before calling filepath functions). -/
def cleanPath (s : Str) : Str :=
  match s with
  | [] => strD "."
  | c :: _ =>
    let rooted := c = '/'
    let out := cleanLoop rooted [] (splitOnChar '/' s)
    if out = [] then (if rooted then strD "/" else strD ".")
    else (if rooted then strD "/" else []) ++ joinSlash out

/-- Trailing-slash stripping step of Go filepath.Base. -/
def dropTrailingSlashes (s : Str) : Str :=
  (s.reverse.dropWhile (fun c => c = '/')).reverse

/-- Go filepath.Base on a slash-separated path: empty input gives ".",
an all-slash input gives "/", otherwise the part after the last slash. -/
def basePath (s : Str) : Str :=
  if s = [] then strD "."
  else
    let s1 := dropTrailingSlashes s
    if s1 = [] then strD "/"
    else (s1.reverse.takeWhile (fun c => c ≠ '/')).reverse

/-- The part of s up to and including its last slash (empty when s has
no slash); Go filepath.Dir cleans exactly this portion. -/
def beforeLastSlash (s : Str) : Str :=
  (s.reverse.dropWhile (fun c => c ≠ '/')).reverse

/-- Go filepath.Dir on a slash-separated path. -/
def dirPath (s : Str) : Str := cleanPath (beforeLastSlash s)

/-- Go filepath.Join for two elements: empty elements are skipped and
the joined path is cleaned. -/
def joinPath (a b : Str) : Str :=
  if a = [] then (if b = [] then [] else cleanPath b)
  else if b = [] then cleanPath a
  else cleanPath (a ++ '/' :: b)

/-- ConvertDirectoryToLowercase (main.go 421-434): unify separators,
split on "/", lowercase every part, re-join. -/
def convertDirectoryToLowercase (dirP : Str) : Str :=
  let d := replaceBackslash dirP
  joinSlash ((splitOnChar '/' d).map toLowerStr)

/-- Splits s at the first occurrence of sep: the part before (without
sep) and the part after.  none when sep does not occur. -/
def splitAtFirst (sep : Char) : Str → Option (Str × Str)
  | [] => none
  | c :: rest =>
    if c = sep then some ([], rest)
    else
      match splitAtFirst sep rest with
      | none => none
      | some (a, b) => some (c :: a, b)

/-- The longest prefix of content that ends in ".html", together with
the rest of content; this is how the greedy subpattern pair
of the link regex of main.go line 361 divides the text inside the
parentheses (the first group is maximal among prefixes ending in
".html", the second group is the remainder). -/
def findHtmlSplitAux (content : Str) : Nat → Option (Str × Str)
  | 0 => none
  | n + 1 =>
    if hasSuffixB (content.take (n + 1)) htmlExt then
      some (content.take (n + 1), content.drop (n + 1))
    else findHtmlSplitAux content n

/-- See findHtmlSplitAux. -/
def findHtmlSplit (content : Str) : Option (Str × Str) :=
  findHtmlSplitAux content content.length

/-- A match attempt of the link regex of main.go line 361 starting just
after a literal opening bracket: the label runs to the first closing
bracket, an opening parenthesis must follow, the parenthesized text
runs to the first closing parenthesis and splits into the longest
prefix ending in ".html" and the anchor remainder.  Returns the label,
path, anchor and the text after the match. -/
def tryMatch (s : Str) : Option (Str × Str × Str × Str) :=
  match splitAtFirst ']' s with
  | none => none
  | some (lab, r1) =>
    match r1 with
    | '(' :: r2 =>
      (match splitAtFirst ')' r2 with
      | none => none
      | some (content, post) =>
        match findHtmlSplit content with
        | none => none
        | some (p, a) => some (lab, p, a, post))
    | _ => none

/-- The replacement function of ConvertHtmlLinksToMd (main.go 364-414)
applied to one match with link text, path (ending ".html") and anchor. -/
def convertLink (linkText htmlPath anchor : Str) : Str :=
  if ¬ (hasPrefixB htmlPath (strD "http") = true) ∧
     ¬ (hasPrefixB htmlPath (strD "/") = true) then
    let hp := replaceBackslash htmlPath
    let dir := dirPath hp
    let filename := basePath hp
    let baseFilename := trimSuffix (trimSuffix filename htmlExt) mdExt
    let mdPath :=
      if dir = strD "." ∨ dir = [] then baseFilename ++ mdExt
      else replaceBackslash
        (joinPath (convertDirectoryToLowercase dir) (baseFilename ++ mdExt))
    strD "[" ++ linkText ++ strD "](" ++ mdPath ++ anchor ++ strD ")"
  else
    let baseFilename :=
      trimSuffix (trimSuffix (basePath htmlPath) htmlExt) mdExt
    let dir := dirPath htmlPath
    let mdPath :=
      if dir = strD "." ∨ dir = [] then baseFilename ++ mdExt
      else replaceBackslash
        (joinPath (convertDirectoryToLowercase dir) (baseFilename ++ mdExt))
    strD "[" ++ linkText ++ strD "](" ++ mdPath ++ anchor ++ strD ")"

theorem splitAtFirst_eq {sep : Char} :
    ∀ {s a b : Str}, splitAtFirst sep s = some (a, b) →
      s = a ++ sep :: b ∧ sep ∉ a := by
  intro s
  induction s with
  | nil => intro a b h; simp [splitAtFirst] at h
  | cons c rest ih =>
    intro a b h
    by_cases hc : c = sep
    · simp [splitAtFirst, hc] at h
      obtain ⟨ha, hb⟩ := h
      subst ha; subst hb; subst hc
      simp
    · simp only [splitAtFirst, if_neg hc] at h
      cases hsp : splitAtFirst sep rest with
      | none => rw [hsp] at h; simp at h
      | some ab =>
        obtain ⟨a0, b0⟩ := ab
        rw [hsp] at h
        simp at h
        obtain ⟨ha, hb⟩ := h
        obtain ⟨h1, h2⟩ := ih hsp
        subst hb
        rw [← ha]
        constructor
        · simp [h1]
        · intro hm
          rcases List.mem_cons.1 hm with h3 | h3
          · exact hc h3.symm
          · exact h2 h3

theorem splitAtFirst_length {sep : Char} {s a b : Str}
    (h : splitAtFirst sep s = some (a, b)) : b.length < s.length := by
  obtain ⟨h1, _⟩ := splitAtFirst_eq h
  subst h1
  simp
  omega

theorem findHtmlSplitAux_parts {content : Str} :
    ∀ {n : Nat} {p a : Str}, findHtmlSplitAux content n = some (p, a) →
      p ++ a = content := by
  intro n
  induction n with
  | zero => intro p a h; simp [findHtmlSplitAux] at h
  | succ m ih =>
    intro p a h
    unfold findHtmlSplitAux at h
    split at h
    · simp at h
      obtain ⟨hp, ha⟩ := h
      subst hp; subst ha
      exact List.take_append_drop _ _
    · exact ih h

theorem findHtmlSplit_parts {content p a : Str}
    (h : findHtmlSplit content = some (p, a)) : p ++ a = content :=
  findHtmlSplitAux_parts h

theorem tryMatch_rem_length {s lab p a rem : Str}
    (h : tryMatch s = some (lab, p, a, rem)) : rem.length < s.length := by
  unfold tryMatch at h
  cases h1 : splitAtFirst ']' s with
  | none => rw [h1] at h; simp at h
  | some lr =>
    obtain ⟨lab0, r1⟩ := lr
    rw [h1] at h
    cases r1 with
    | nil => simp at h
    | cons c r2 =>
      by_cases hc : c = '('
      · subst hc
        simp only at h
        cases h2 : splitAtFirst ')' r2 with
        | none => rw [h2] at h; simp at h
        | some cp =>
          obtain ⟨content, post⟩ := cp
          rw [h2] at h
          dsimp only at h
          cases h3 : findHtmlSplit content with
          | none => rw [h3] at h; simp at h
          | some pa =>
            obtain ⟨p0, a0⟩ := pa
            rw [h3] at h
            simp at h
            obtain ⟨_, _, _, hrem⟩ := h
            subst hrem
            have l1 := splitAtFirst_length h1
            have l2 := splitAtFirst_length h2
            simp at l1
            omega
      · cases c <;> simp_all

/-- The scan of ConvertHtmlLinksToMd: regexp.ReplaceAllStringFunc finds
leftmost matches of the pattern of line 361 (each must start at a
literal opening bracket), replaces each with convertLink, copies
non-matching text unchanged, and continues after each match.  The scan
consumes at least one character per step, so the first argument, a
step budget of the input length, never runs out. -/
def scanLinksF : Nat → Str → Str
  | 0, s => s
  | _ + 1, [] => []
  | fuel + 1, c :: rest =>
    if c = '[' then
      match tryMatch rest with
      | some (lab, p, a, rem) => convertLink lab p a ++ scanLinksF fuel rem
      | none => c :: scanLinksF fuel rest
    else c :: scanLinksF fuel rest

/-- The scan, run with a sufficient step budget. -/
def scanLinks (s : Str) : Str := scanLinksF s.length s

/-- ConvertHtmlLinksToMd (main.go 358-418). -/
def convertHtmlLinksToMd (content : Str) : Str := scanLinks content

/-- A path segment free of the characters the rewriter treats
specially: nonempty, not "." or "..", and without '/', BACKSLASH or
')'. -/
def goodSeg (s : Str) : Bool :=
  decide (s ≠ [] ∧ s ≠ strD "." ∧ s ≠ strD ".." ∧
    '/' ∉ s ∧ '\\' ∉ s ∧ ')' ∉ s)

/-! ### The DirEntry tree and sortDirectoryTree -/

/-- Go byte-wise lexicographic string comparison a < b (the order
behind the a.Name > b.Name test in sortDirectoryTree). -/
def ltStrB : Str → Str → Bool
  | [], [] => false
  | [], _ :: _ => true
  | _ :: _, [] => false
  | a :: as, b :: bs =>
    if a < b then true
    else if b < a then false
    else ltStrB as bs

/-- The DirEntry structure of main.go (lines 27-32): name, relative
path, directory flag, children. -/
inductive DirEntry where
  | mk (name : Str) (path : Str) (isDir : Bool) (children : List DirEntry)

mutual

/-- Decidable equality of DirEntry values. -/
def decEqEntry : (a b : DirEntry) → Decidable (a = b)
  | .mk n1 p1 d1 c1, .mk n2 p2 d2 c2 =>
    if hn : n1 = n2 then
      if hp : p1 = p2 then
        if hd : d1 = d2 then
          match decEqEntryList c1 c2 with
          | isTrue hc => isTrue (by rw [hn, hp, hd, hc])
          | isFalse hc => isFalse (by intro h; injection h; contradiction)
        else isFalse (by intro h; injection h; contradiction)
      else isFalse (by intro h; injection h; contradiction)
    else isFalse (by intro h; injection h; contradiction)

/-- Decidable equality of DirEntry lists. -/
def decEqEntryList : (a b : List DirEntry) → Decidable (a = b)
  | [], [] => isTrue rfl
  | [], _ :: _ => isFalse (by intro h; cases h)
  | _ :: _, [] => isFalse (by intro h; cases h)
  | x :: xs, y :: ys =>
    match decEqEntry x y, decEqEntryList xs ys with
    | isTrue h1, isTrue h2 => isTrue (by rw [h1, h2])
    | isFalse h1, _ => isFalse (by intro h; injection h; contradiction)
    | isTrue _, isFalse h2 => isFalse (by intro h; injection h; contradiction)

end

instance : DecidableEq DirEntry := decEqEntry

/-- The Name field. -/
def DirEntry.name : DirEntry → Str
  | .mk n _ _ _ => n

/-- The Path field. -/
def DirEntry.path : DirEntry → Str
  | .mk _ p _ _ => p

/-- The IsDir field. -/
def DirEntry.isDir : DirEntry → Bool
  | .mk _ _ d _ => d

/-- The Children field. -/
def DirEntry.children : DirEntry → List DirEntry
  | .mk _ _ _ c => c

/-- The swap decision of the double loop in sortDirectoryTree
(main.go 700-717) for a at the earlier index and b at the later index:
keep a directory before a file, move a directory up past a file, and
within one kind swap when a.Name > b.Name. -/
def swapNeeded (a b : DirEntry) : Bool :=
  if a.isDir && !b.isDir then false
  else if !a.isDir && b.isDir then true
  else ltStrB b.name a.name

/-- One comparison step of the double loop: compare the entries at
positions i and j and swap them when needed. -/
def maybeSwap (l : List DirEntry) (i j : Nat) : List DirEntry :=
  if hi : i < l.length then
    if hj : j < l.length then
      if swapNeeded (l.get ⟨i, hi⟩) (l.get ⟨j, hj⟩) then
        (l.set i (l.get ⟨j, hj⟩)).set j (l.get ⟨i, hi⟩)
      else l
    else l
  else l

/-- The inner loop of sortDirectoryTree: j runs from its start value up
to n (the fixed length of the children slice), one comparison per
iteration; the first argument counts the remaining iterations n - j. -/
def innerLoopCnt (i : Nat) : Nat → List DirEntry → Nat → List DirEntry
  | 0, l, _ => l
  | cnt + 1, l, j => innerLoopCnt i cnt (maybeSwap l i j) (j + 1)

/-- The inner loop, entered at position j. -/
def innerLoopAux (i n : Nat) (l : List DirEntry) (j : Nat) : List DirEntry :=
  innerLoopCnt i (n - j) l j

/-- The outer loop of sortDirectoryTree: i runs from 0 to n, running
the inner loop from j = i+1 each time; the first argument counts the
remaining iterations n - i. -/
def outerLoopCnt (n : Nat) : Nat → List DirEntry → Nat → List DirEntry
  | 0, l, _ => l
  | cnt + 1, l, i => outerLoopCnt n cnt (innerLoopAux i n l (i + 1)) (i + 1)

/-- The child-sorting pass of sortDirectoryTree (main.go 699-718). -/
def sortChildren (l : List DirEntry) : List DirEntry :=
  outerLoopCnt l.length l.length l 0

theorem mem_of_mem_maybeSwap {l : List DirEntry} {i j : Nat} {x : DirEntry}
    (h : x ∈ maybeSwap l i j) : x ∈ l := by
  unfold maybeSwap at h
  split at h
  · split at h
    · split at h
      · rcases List.mem_or_eq_of_mem_set h with h1 | h1
        · rcases List.mem_or_eq_of_mem_set h1 with h2 | h2
          · exact h2
          · subst h2; exact List.get_mem _ _ _
        · subst h1; exact List.get_mem _ _ _
      · exact h
    · exact h
  · exact h

theorem mem_of_mem_innerLoopCnt {i : Nat} :
    ∀ {cnt : Nat} {l : List DirEntry} {j : Nat} {x : DirEntry},
      x ∈ innerLoopCnt i cnt l j → x ∈ l := by
  intro cnt
  induction cnt with
  | zero => intro l j x h; exact h
  | succ m ih =>
    intro l j x h
    exact mem_of_mem_maybeSwap (ih h)

theorem mem_of_mem_outerLoopCnt {n : Nat} :
    ∀ {cnt : Nat} {l : List DirEntry} {i : Nat} {x : DirEntry},
      x ∈ outerLoopCnt n cnt l i → x ∈ l := by
  intro cnt
  induction cnt with
  | zero => intro l i x h; exact h
  | succ m ih =>
    intro l i x h
    exact mem_of_mem_innerLoopCnt (ih h)

theorem mem_of_mem_sortChildren {l : List DirEntry} {x : DirEntry}
    (h : x ∈ sortChildren l) : x ∈ l :=
  mem_of_mem_outerLoopCnt h

/-- sortDirectoryTree (main.go 694-724): a non-directory entry is left
alone; for a directory the children are sorted in place and the sort
then recurses into every (sorted) child. -/
def sortDirectoryTree : DirEntry → DirEntry
  | .mk n p d c =>
    if d then
      DirEntry.mk n p d
        ((sortChildren c).attach.map (fun x => sortDirectoryTree x.1))
    else DirEntry.mk n p d c
termination_by e => sizeOf e
decreasing_by
  have h2 := List.sizeOf_lt_of_mem (mem_of_mem_sortChildren x.2)
  simp
  omega

/-! ### Summary emission -/

/-- strings.Repeat("  ", depth): the indentation of one outline line. -/
def indentStr (depth : Nat) : Str := (List.replicate depth (strD "  ")).flatten

/-- One line written by writeSummaryEntries: an unlinked directory
heading or a linked document entry. -/
inductive SummaryLine where
  | dirLine (depth : Nat) (name : Str)
  | linkLine (depth : Nat) (label : Str) (target : Str)
deriving DecidableEq

/-- The text of one summary line, exactly as the format strings of
main.go 733 and 740 produce it. -/
def renderSummaryLine : SummaryLine → Str
  | .dirLine depth nm => indentStr depth ++ strD "  " ++ nm ++ strD "\n"
  | .linkLine depth lab tgt =>
      indentStr depth ++ strD "- [" ++ lab ++ strD "](" ++ tgt ++ strD ")\n"

/-- The lines emitted by writeSummaryEntries (main.go 727-744), in
emission order: a directory becomes a heading line followed by its
children one level deeper; a file whose lowercased name ends in ".md"
becomes a linked line with the ".md" suffix trimmed from the label and
the Path field as the target. -/
def summaryEntries : List DirEntry → Nat → List SummaryLine
  | [], _ => []
  | DirEntry.mk nm _ true ch :: rest, depth =>
      SummaryLine.dirLine depth nm :: summaryEntries ch (depth + 1) ++
        summaryEntries rest depth
  | DirEntry.mk nm pth false _ :: rest, depth =>
      (if hasSuffixB (toLowerStr nm) mdExt then
        [SummaryLine.linkLine depth (trimSuffix nm mdExt) pth]
      else []) ++ summaryEntries rest depth

/-- writeSummaryEntries (main.go 727-744) as the text it appends to the
builder. -/
def writeSummaryEntries (es : List DirEntry) (depth : Nat) : Str :=
  ((summaryEntries es depth).map renderSummaryLine).flatten

/-- The linked lines of an emitted line list, in order. -/
def linkedLines (ls : List SummaryLine) : List (Str × Str) :=
  ls.foldr
    (fun l acc =>
      match l with
      | .dirLine _ _ => acc
      | .linkLine _ lab tgt => (lab, tgt) :: acc) []

/-! ### The filesystem model -/

/-- A filesystem entry: a file with its byte content, or a directory
with named children. -/
inductive FsTree where
  | file (content : Str)
  | dir (entries : List (Str × FsTree))

mutual

/-- Decidable equality of FsTree values. -/
def decEqFsTree : (a b : FsTree) → Decidable (a = b)
  | .file c1, .file c2 =>
    if h : c1 = c2 then isTrue (by rw [h])
    else isFalse (by intro hh; injection hh; contradiction)
  | .file _, .dir _ => isFalse (by intro h; cases h)
  | .dir _, .file _ => isFalse (by intro h; cases h)
  | .dir e1, .dir e2 =>
    match decEqFsEntries e1 e2 with
    | isTrue h => isTrue (by rw [h])
    | isFalse h => isFalse (by intro hh; injection hh; contradiction)

/-- Decidable equality of FsTree entry lists. -/
def decEqFsEntries : (a b : List (Str × FsTree)) → Decidable (a = b)
  | [], [] => isTrue rfl
  | [], _ :: _ => isFalse (by intro h; cases h)
  | _ :: _, [] => isFalse (by intro h; cases h)
  | (n1, t1) :: xs, (n2, t2) :: ys =>
    if hn : n1 = n2 then
      match decEqFsTree t1 t2, decEqFsEntries xs ys with
      | isTrue h1, isTrue h2 => isTrue (by rw [hn, h1, h2])
      | isFalse h1, _ =>
        isFalse (by intro h; injection h with hh ht; injection hh; contradiction)
      | isTrue _, isFalse h2 =>
        isFalse (by intro h; injection h with hh ht; contradiction)
    else
      isFalse (by intro h; injection h with hh ht; injection hh; contradiction)

end

instance : DecidableEq FsTree := decEqFsTree

/-- Insertion into a name-sorted entry list, keeping ascending
byte-lexicographic name order. -/
def insertSorted (e : Str × FsTree) : List (Str × FsTree) →
    List (Str × FsTree)
  | [] => [e]
  | f :: rest =>
    if ltStrB f.1 e.1 then f :: insertSorted e rest else e :: f :: rest

/-- filepath.Walk reads each directory in sorted (byte-lexicographic)
name order; this insertion sort produces that order. -/
def sortEntries : List (Str × FsTree) → List (Str × FsTree)
  | [] => []
  | e :: rest => insertSorted e (sortEntries rest)

theorem insertSorted_perm (e : Str × FsTree) :
    ∀ (l : List (Str × FsTree)), List.Perm (insertSorted e l) (e :: l) := by
  intro l
  induction l with
  | nil => simp [insertSorted]
  | cons f rest ih =>
    unfold insertSorted
    split
    · exact ((ih.cons f).trans (List.Perm.swap e f rest))
    · exact List.Perm.refl _

theorem sortEntries_perm (es : List (Str × FsTree)) :
    List.Perm (sortEntries es) es := by
  induction es with
  | nil => exact List.Perm.refl _
  | cons e rest ih =>
    exact (insertSorted_perm e (sortEntries rest)).trans (ih.cons e)

theorem sizeOf_sortEntries (es : List (Str × FsTree)) :
    sizeOf (sortEntries es) = sizeOf es :=
  List.Perm.sizeOf_eq_sizeOf (sortEntries_perm es)

mutual

/-- The number of nodes of a filesystem tree (used as a step budget). -/
def fsSize : FsTree → Nat
  | .file _ => 1
  | .dir es => 1 + entsSize es

/-- The number of nodes of an entry list (used as a step budget). -/
def entsSize : List (Str × FsTree) → Nat
  | [] => 1
  | (_, t) :: rest => 1 + fsSize t + entsSize rest

end

theorem entsSize_perm :
    ∀ {l1 l2 : List (Str × FsTree)}, List.Perm l1 l2 →
      entsSize l1 = entsSize l2 := by
  intro l1 l2 h
  induction h with
  | nil => rfl
  | cons x _ ih => obtain ⟨n, t⟩ := x; simp [entsSize, ih]
  | swap x y _ =>
    obtain ⟨n1, t1⟩ := x; obtain ⟨n2, t2⟩ := y
    simp [entsSize]; omega
  | trans _ _ ih1 ih2 => omega

theorem entsSize_sortEntries (es : List (Str × FsTree)) :
    entsSize (sortEntries es) = entsSize es :=
  entsSize_perm (sortEntries_perm es)

/-- Filesystem well-formedness at every level: sibling names are
distinct (as a real directory guarantees).  The step budget decreases
on each descent; entsSize es always suffices. -/
def wfEntriesF : Nat → List (Str × FsTree) → Bool
  | 0, _ => false
  | fuel + 1, es =>
    decide ((es.map Prod.fst).Nodup) &&
    es.all (fun e =>
      match e.2 with
      | FsTree.file _ => true
      | FsTree.dir sub => wfEntriesF fuel sub)

/-- Filesystem well-formedness, with a sufficient budget. -/
def wfEntries (es : List (Str × FsTree)) : Bool := wfEntriesF (entsSize es) es

/-! ### BuildDirectoryTreeAfterRename and GenerateSummaryMd -/

/-- The skip conditions of the walk of BuildDirectoryTreeAfterRename
(main.go 606-614): hidden names, book.toml, SUMMARY.md, and
prefix-renamed files whose lowercased name ends in ".html". -/
def skipName (pfx name : Str) : Bool :=
  hasPrefixB name (strD ".") || decide (name = strD "book.toml") ||
  decide (name = strD "SUMMARY.md") ||
  (hasSuffixB (toLowerStr name) htmlExt && hasPrefixB name pfx)

/-- The display path of a ".md" entry (main.go 629-632): trim ".md"
twice, re-append it once, lowercase the whole relative path. -/
def displayPathAfterRename (rel : Str) : Str :=
  toLowerStr (trimSuffix (trimSuffix rel mdExt) mdExt ++ mdExt)

/-- The children lists built by the walk of BuildDirectoryTreeAfterRename
(main.go 588-663): entries are visited in sorted order; skipped names
produce nothing (a skipped directory also loses its entire subtree,
because the parent lookup of its descendants fails); a directory keeps
its walk name and relative path; a file is kept only when its
lowercased name ends in ".md", with the lowercased collapsed display
path. -/
def buildChildren (pfx : Str) (relPath : Str) (es : List (Str × FsTree)) :
    List DirEntry :=
  (sortEntries es).attach.flatMap
    (fun x =>
      match x with
      | ⟨(name, FsTree.dir sub), hmem⟩ =>
        if skipName pfx name then []
        else
          [DirEntry.mk name
            (if hasSuffixB (toLowerStr name) mdExt then
              displayPathAfterRename
                (if relPath = [] then name else relPath ++ strD "/" ++ name)
            else if relPath = [] then name else relPath ++ strD "/" ++ name)
            true
            (buildChildren pfx
              (if relPath = [] then name else relPath ++ strD "/" ++ name) sub)]
      | ⟨(name, FsTree.file _), _⟩ =>
        if skipName pfx name then []
        else if hasSuffixB (toLowerStr name) mdExt then
          [DirEntry.mk name
            (displayPathAfterRename
              (if relPath = [] then name else relPath ++ strD "/" ++ name))
            false []]
        else [])
termination_by sizeOf es
decreasing_by
  have h1 := (sortEntries_perm es).subset hmem
  have h2 := List.sizeOf_lt_of_mem h1
  simp at h2
  omega

/-- BuildDirectoryTreeAfterRename (main.go 588-663) on the filesystem
state of the output root: build the children and sort the tree. -/
def buildDirectoryTreeAfterRename (pfx rootName : Str)
    (fs : List (Str × FsTree)) : DirEntry :=
  sortDirectoryTree (DirEntry.mk rootName [] true (buildChildren pfx [] fs))

/-- hasIntroFile (main.go 747-755): one of the three fixed intro names
exists at the output root. -/
def hasIntroFile (rootNames : List Str) : Bool :=
  rootNames.contains (strD "index.html") ||
  rootNames.contains (strD "README.md") ||
  rootNames.contains (strD "readme.md")

/-- GenerateSummaryMd (main.go 480-502) as the text written to
SUMMARY.md. -/
def generateSummaryMd (pfx rootName : Str) (fs : List (Str × FsTree)) : Str :=
  strD "# Summary\n\n" ++
  (if hasIntroFile (fs.map Prod.fst) then strD "- [Introduction](README.md)\n\n"
   else []) ++
  writeSummaryEntries (buildDirectoryTreeAfterRename pfx rootName fs).children 0

/-- The convertible documents of the outline/tree-correspondence claim,
following the specification text: the (label, target) pairs of every
".md" file reachable in the tree through non-skipped directories and
not itself skipped (hidden, book.toml, SUMMARY.md, prefixed renamed
original), with the label the name minus ".md" and the target the
lowercased collapsed relative path. -/
def convertibleDocs (pfx : Str) (relPath : Str)
    (es : List (Str × FsTree)) : List (Str × Str) :=
  es.attach.flatMap
    (fun x =>
      match x with
      | ⟨(name, FsTree.dir sub), hmem⟩ =>
        if skipName pfx name then []
        else convertibleDocs pfx
          (if relPath = [] then name else relPath ++ strD "/" ++ name) sub
      | ⟨(name, FsTree.file _), _⟩ =>
        if skipName pfx name then []
        else if hasSuffixB (toLowerStr name) mdExt then
          [(trimSuffix name mdExt,
            displayPathAfterRename
              (if relPath = [] then name else relPath ++ strD "/" ++ name))]
        else [])
termination_by sizeOf es
decreasing_by
  have h2 := List.sizeOf_lt_of_mem hmem
  simp at h2
  omega

/-- The (label, target) pairs contributed by a built DirEntry list: a
directory contributes the pairs of its children, a ".md" file its one
linked pair. -/
def docsOf (es : List DirEntry) : List (Str × Str) :=
  es.attach.flatMap
    (fun x =>
      match x with
      | ⟨.mk _ _ true ch, hmem⟩ => docsOf ch
      | ⟨.mk nm pth false _, _⟩ =>
        if hasSuffixB (toLowerStr nm) mdExt then
          [(trimSuffix nm mdExt, pth)]
        else [])
termination_by sizeOf es
decreasing_by
  have h2 := List.sizeOf_lt_of_mem hmem
  simp at h2
  omega

/-- The per-entry block of docsOf. -/
def docsOfE : DirEntry → List (Str × Str)
  | .mk _ _ true ch => docsOf ch
  | .mk nm pth false _ =>
      if hasSuffixB (toLowerStr nm) mdExt then
        [(trimSuffix nm mdExt, pth)]
      else []

/-- The per-entry block of buildChildren. -/
def buildF (pfx relPath : Str) (e : Str × FsTree) : List DirEntry :=
  match e with
  | (name, FsTree.dir sub) =>
    if skipName pfx name then []
    else
      [DirEntry.mk name
        (if hasSuffixB (toLowerStr name) mdExt then
          displayPathAfterRename
            (if relPath = [] then name else relPath ++ strD "/" ++ name)
        else if relPath = [] then name else relPath ++ strD "/" ++ name)
        true
        (buildChildren pfx
          (if relPath = [] then name else relPath ++ strD "/" ++ name) sub)]
  | (name, FsTree.file _) =>
    if skipName pfx name then []
    else if hasSuffixB (toLowerStr name) mdExt then
      [DirEntry.mk name
        (displayPathAfterRename
          (if relPath = [] then name else relPath ++ strD "/" ++ name))
        false []]
    else []

/-- The per-entry block of convertibleDocs. -/
def convertF (pfx relPath : Str) (e : Str × FsTree) : List (Str × Str) :=
  match e with
  | (name, FsTree.dir sub) =>
    if skipName pfx name then []
    else convertibleDocs pfx
      (if relPath = [] then name else relPath ++ strD "/" ++ name) sub
  | (name, FsTree.file _) =>
    if skipName pfx name then []
    else if hasSuffixB (toLowerStr name) mdExt then
      [(trimSuffix name mdExt,
        displayPathAfterRename
          (if relPath = [] then name else relPath ++ strD "/" ++ name))]
    else []

/-! ### RenameDirectoriesToLowercase: walk order and reversal -/

/-- The directory paths collected by the walk of
RenameDirectoriesToLowercase (main.go 762-772): every directory below
the root, in top-down walk order (each directory is reported before its
contents, children in sorted name order), as segment lists. -/
def walkDirs (pre : List Str) (es : List (Str × FsTree)) : List (List Str) :=
  (sortEntries es).attach.flatMap
    (fun x =>
      match x with
      | ⟨(n, FsTree.dir sub), hmem⟩ => (pre ++ [n]) :: walkDirs (pre ++ [n]) sub
      | ⟨(_, FsTree.file _), _⟩ => [])
termination_by sizeOf es
decreasing_by
  have h1 := (sortEntries_perm es).subset hmem
  have h2 := List.sizeOf_lt_of_mem h1
  simp at h2
  omega

/-- One swap directories[i], directories[opp] = directories[opp],
directories[i] of the reversal loop (main.go 779-782). -/
def swapIdx {α : Type} (l : List α) (i j : Nat) : List α :=
  if hi : i < l.length then
    if hj : j < l.length then
      (l.set i (l.get ⟨j, hj⟩)).set j (l.get ⟨i, hi⟩)
    else l
  else l

/-- The reversal loop of main.go 779-782 run for indices k-1 down
to 0, each index i swapped with length-1-i. -/
def swapPairAux {α : Type} (l : List α) : Nat → List α
  | 0 => l
  | k + 1 => swapPairAux (swapIdx l k (l.length - 1 - k)) k

/-- The in-place reversal of main.go 779-782: swap index i with
length-1-i for i from length/2-1 down to 0. -/
def reverseInPlace {α : Type} (l : List α) : List α :=
  swapPairAux l (l.length / 2)

/-- The processing order of RenameDirectoriesToLowercase (main.go
758-793): the collected top-down walk order, reversed in place. -/
def renameProcessOrder (fs : List (Str × FsTree)) : List (List Str) :=
  reverseInPlace (walkDirs [] fs)

/-- The per-entry block of the walk of RenameDirectoriesToLowercase: a
directory entry contributes its own path followed by its subtree walk,
a file contributes nothing. -/
def walkF (pre : List Str) (e : Str × FsTree) : List (List Str) :=
  match e with
  | (n, FsTree.dir sub) => (pre ++ [n]) :: walkDirs (pre ++ [n]) sub
  | (_, FsTree.file _) => []

/-- A strictly shorter ancestor path: p is a proper prefix of q. -/
def properPrefix (p q : List Str) : Prop := p <+: q ∧ p ≠ q

/-! ### renameSingleDirectoryToLowercase and mergeDirectories -/

/-- Entry lookup by name (the model of os.Stat on a child of a
directory). -/
def lookupEntry (es : List (Str × FsTree)) (n : Str) : Option FsTree :=
  (es.find? (fun e => e.1 == n)).map Prod.snd

/-- Whether an entry of that name exists. -/
def existsEntry (es : List (Str × FsTree)) (n : Str) : Bool :=
  (lookupEntry es n).isSome

/-- Replace the tree stored under a name. -/
def replaceEntry (es : List (Str × FsTree)) (n : Str) (t : FsTree) :
    List (Str × FsTree) :=
  es.map (fun e => if e.1 == n then (e.1, t) else e)

/-- Rename an entry, keeping its tree. -/
def renameEntry (es : List (Str × FsTree)) (old new : Str) :
    List (Str × FsTree) :=
  es.map (fun e => if e.1 == old then (new, e.2) else e)

/-- The walk body of mergeDirectories (main.go 850-889) over the
source entries of one directory level, in sorted walk order: a source
file is copied unless the destination already has an entry of that
name (then it is skipped, keeping the destination); a source directory
is created when absent (copying its contents into the fresh directory)
or merged into an existing destination directory; a source directory
colliding with a destination file makes os.MkdirAll fail, aborting the
walk with an error (modelled as none). -/
def mergeGoF : Nat → List (Str × FsTree) → List (Str × FsTree) →
    Option (List (Str × FsTree))
  | 0, _, _ => none
  | _ + 1, [], dst => some dst
  | fuel + 1, (n, FsTree.file c) :: rest, dst =>
    (match lookupEntry dst n with
    | some _ => mergeGoF fuel rest dst
    | none => mergeGoF fuel rest (dst ++ [(n, FsTree.file c)]))
  | fuel + 1, (n, FsTree.dir sub) :: rest, dst =>
    (match lookupEntry dst n with
    | some (FsTree.file _) => none
    | some (FsTree.dir dsub) =>
      (match mergeGoF fuel (sortEntries sub) dsub with
      | none => none
      | some merged => mergeGoF fuel rest (replaceEntry dst n (FsTree.dir merged)))
    | none =>
      (match mergeGoF fuel (sortEntries sub) [] with
      | none => none
      | some copied => mergeGoF fuel rest (dst ++ [(n, FsTree.dir copied)])))

/-- mergeDirectories (main.go 850-889): merge the contents of the
source directory into the destination directory, never overwriting an
existing destination file.  The step budget entsSize src strictly
exceeds the rank of every recursive call, so the out-of-budget branch
of mergeGoF is never reached. -/
def mergeEntries (src dst : List (Str × FsTree)) :
    Option (List (Str × FsTree)) :=
  mergeGoF (entsSize src) (sortEntries src) dst

/-- renameSingleDirectoryToLowercase (main.go 796-847) acting on the
entry list of the parent directory of dirPath, where cur is the base
name of dirPath.  The state is the parent directory entry list; the
returned flag is true when the function returns an error.  os.Rename is
modelled as failing exactly when the destination name exists — for the
states arising in the theorems below the destination, when present, is
a non-empty directory, on which POSIX rename fails. -/
def renameSingleDirectoryToLowercase (st : List (Str × FsTree)) (cur : Str) :
    List (Str × FsTree) × Bool :=
  let lower := toLowerStr cur
  if cur = lower then (st, false)
  else
    match lookupEntry st lower, lookupEntry st cur with
    | some (FsTree.dir lsub), some (FsTree.dir csub) =>
      (match mergeEntries lsub csub with
      | none => (st, true)
      | some csub2 =>
        renamePhases (replaceEntry st cur (FsTree.dir csub2)) cur lower)
    | some _, some _ => (st, true)
    | some _, none => (st, false)
    | none, _ => renamePhases st cur lower
where
  /-- The two-phase rename of main.go 828-846 with rollback: rename cur
  to cur+"_temp_rename", then the temporary name to the lowercase name;
  when phase two fails (the lowercase name still exists), rename the
  temporary name back to cur and report the error. -/
  renamePhases (st1 : List (Str × FsTree)) (cur lower : Str) :
      List (Str × FsTree) × Bool :=
    if ¬ (existsEntry st1 cur = true) then (st1, false)
    else
      let temp := cur ++ strD "_temp_rename"
      if existsEntry st1 temp then (st1, true)
      else
        let st2 := renameEntry st1 cur temp
        if existsEntry st2 lower then (renameEntry st2 temp cur, true)
        else (renameEntry st2 temp lower, false)

/-- The per-directory loop of RenameDirectoriesToLowercase (main.go
784-790) at one parent level: every collected name is processed, and a
failed rename only logs — the loop always continues with the next
name. -/
def processDirectories (st : List (Str × FsTree)) (names : List Str) :
    List (Str × FsTree) :=
  names.foldl (fun s n => (renameSingleDirectoryToLowercase s n).1) st

/-! ### RenameHtmlFiles -/

/-- The new-name computation of RenameHtmlFiles (main.go 330-337): the
configured prefix followed by the lowercased file name. -/
def renameHtmlNewName (pfx name : Str) : Str := pfx ++ toLowerStr name

/-- One file processed by the rename loop of RenameHtmlFiles (main.go
329-352) on the name listing of its directory: when the new name
already exists the file is skipped, otherwise it is renamed. -/
def renameHtmlStep (pfx : Str) (listing : List Str) (name : Str) : List Str :=
  if renameHtmlNewName pfx name ∈ listing then listing
  else renameHtmlNewName pfx name :: listing.erase name

/-- The collection pass of RenameHtmlFiles (main.go 312-322): the files
whose lowercased name ends in ".html". -/
def collectHtmlNames (listing : List Str) : List Str :=
  listing.filter (fun n => hasSuffixB (toLowerStr n) htmlExt)

/-- RenameHtmlFiles (main.go 308-355) on the files of one directory
(files in different directories cannot collide, so the sweep factors
through directories): collect the html names, then rename each in
turn. -/
def renameHtmlFiles (pfx : Str) (listing : List Str) : List Str :=
  (collectHtmlNames listing).foldl (renameHtmlStep pfx) listing

/-! ### Basic lemmas about trimSuffix -/

theorem hasSuffixB_iff (s suffix : Str) :
    hasSuffixB s suffix = true ↔ suffix <:+ s := by
  simp [hasSuffixB, List.isSuffixOf_iff_suffix]

theorem trimSuffix_append (x suffix : Str) :
    trimSuffix (x ++ suffix) suffix = x := by
  unfold trimSuffix
  rw [if_pos]
  · simp
  · exact (hasSuffixB_iff _ _).2 ⟨x, rfl⟩

theorem trimSuffix_of_not_suffix {s suffix : Str} (h : ¬ suffix <:+ s) :
    trimSuffix s suffix = s := by
  unfold trimSuffix
  rw [if_neg]
  intro hc
  exact h ((hasSuffixB_iff _ _).1 hc)

theorem not_html_suffix_of_md (x : Str) : ¬ htmlExt <:+ (x ++ mdExt) := by
  intro h
  have hmd : mdExt <:+ (x ++ mdExt) := ⟨x, rfl⟩
  rcases List.suffix_or_suffix_of_suffix hmd h with h1 | h1
  · exact absurd h1 (by decide)
  · exact absurd h1 (by decide)

theorem swapExtMd_of_md (x : Str) : swapExtMd (x ++ mdExt) = x ++ mdExt := by
  unfold swapExtMd
  rw [trimSuffix_of_not_suffix (not_html_suffix_of_md x), trimSuffix_append]

/-- C3: the document-extension swap of ConvertSingleHtmlFile (main.go
283-284) and ConvertHtmlLinksToMd (386-390) is idempotent; on a name
already ending in ".md" it returns the name unchanged (so x.md stays
x.md, never becoming x.md.md, under any number of repeated
applications), and x.md.html collapses to x.md. -/
theorem claim_C3 :
    (∀ s : Str, swapExtMd (swapExtMd s) = swapExtMd s) ∧
    (∀ x : Str, swapExtMd (x ++ mdExt) = x ++ mdExt) ∧
    (∀ x : Str, swapExtMd (x ++ mdExt ++ htmlExt) = x ++ mdExt) := by
  refine ⟨?_, swapExtMd_of_md, ?_⟩
  · intro s
    exact swapExtMd_of_md (trimSuffix (trimSuffix s htmlExt) mdExt)
  · intro x
    unfold swapExtMd
    rw [trimSuffix_append, trimSuffix_append]

/-! ### Order lemmas for the sortDirectoryTree comparator -/

theorem ltStrB_irrefl : ∀ a : Str, ltStrB a a = false := by
  intro a
  induction a with
  | nil => rfl
  | cons c rest ih => simp [ltStrB, ih]

theorem ltStrB_asymm : ∀ {a b : Str}, ltStrB a b = true → ltStrB b a = false := by
  intro a
  induction a with
  | nil =>
    intro b h
    cases b with
    | nil => simp [ltStrB] at h
    | cons y ys => simp [ltStrB]
  | cons x xs ih =>
    intro b h
    cases b with
    | nil => simp [ltStrB] at h
    | cons y ys =>
      by_cases hxy : x < y
      · simp [ltStrB, hxy, lt_asymm hxy]
      · by_cases hyx : y < x
        · simp [ltStrB, hxy, hyx] at h
        · simp [ltStrB, hxy, hyx] at h ⊢
          exact ih h

theorem ltStrB_trans :
    ∀ {a b c : Str}, ltStrB a b = true → ltStrB b c = true →
      ltStrB a c = true := by
  intro a
  induction a with
  | nil =>
    intro b c h1 h2
    cases b with
    | nil => simp [ltStrB] at h1
    | cons y ys =>
      cases c with
      | nil => simp [ltStrB] at h2
      | cons z zs => simp [ltStrB]
  | cons x xs ih =>
    intro b c h1 h2
    cases b with
    | nil => simp [ltStrB] at h1
    | cons y ys =>
      cases c with
      | nil => simp [ltStrB] at h2
      | cons z zs =>
        by_cases hxy : x < y
        · by_cases hyz : y < z
          · simp [ltStrB, lt_trans hxy hyz]
          · by_cases hzy : z < y
            · simp [ltStrB, hyz, hzy] at h2
            · have hy : y = z := le_antisymm (not_lt.1 hzy) (not_lt.1 hyz)
              subst hy
              simp [ltStrB, hxy]
        · by_cases hyx : y < x
          · simp [ltStrB, hxy, hyx] at h1
          · have hx : x = y := le_antisymm (not_lt.1 hyx) (not_lt.1 hxy)
            subst hx
            by_cases hyz : x < z
            · simp [ltStrB, hyz]
            · by_cases hzy : z < x
              · simp [ltStrB, hyz, hzy] at h2
              · simp [ltStrB, hxy, hyx] at h1
                simp [ltStrB, hyz, hzy] at h2 ⊢
                exact ih h1 h2

theorem ltStrB_eq_of_not :
    ∀ {a b : Str}, ltStrB a b = false → ltStrB b a = false → a = b := by
  intro a
  induction a with
  | nil =>
    intro b h1 _
    cases b with
    | nil => rfl
    | cons y ys => simp [ltStrB] at h1
  | cons x xs ih =>
    intro b h1 h2
    cases b with
    | nil => simp [ltStrB] at h2
    | cons y ys =>
      by_cases hxy : x < y
      · simp [ltStrB, hxy] at h1
      · by_cases hyx : y < x
        · simp [ltStrB, hyx] at h2
        · have hx : x = y := le_antisymm (not_lt.1 hyx) (not_lt.1 hxy)
          subst hx
          simp [ltStrB, hxy, hyx] at h1 h2
          rw [ih h1 h2]

theorem ltStrB_not_trans {a b c : Str} (h1 : ltStrB b a = false)
    (h2 : ltStrB c b = false) : ltStrB c a = false := by
  cases hca : ltStrB c a with
  | false => rfl
  | true =>
    exfalso
    cases hab : ltStrB a b with
    | true =>
      have h := ltStrB_trans hca hab
      rw [h] at h2
      cases h2
    | false =>
      have heq : a = b := ltStrB_eq_of_not hab h1
      subst heq
      rw [hca] at h2
      cases h2

theorem swapNeeded_asymm {a b : DirEntry} (h : swapNeeded a b = true) :
    swapNeeded b a = false := by
  unfold swapNeeded at h ⊢
  cases hda : a.isDir <;> cases hdb : b.isDir <;> simp [hda, hdb] at h ⊢ <;>
    exact ltStrB_asymm h

theorem notSwap_trans {a b c : DirEntry} (h1 : swapNeeded a b = false)
    (h2 : swapNeeded b c = false) : swapNeeded a c = false := by
  unfold swapNeeded at h1 h2 ⊢
  cases hda : a.isDir <;> cases hdb : b.isDir <;> cases hdc : c.isDir <;>
    simp [hda, hdb, hdc] at h1 h2 ⊢ <;>
    exact ltStrB_not_trans h1 h2

/-! ### A selection-sort reference form of the double loop -/

/-- Reference form of one inner-loop pass of sortDirectoryTree: the
element left at position i after the pass, and the displaced elements
at the later positions, in order. -/
def selOne (x : DirEntry) : List DirEntry → DirEntry × List DirEntry
  | [] => (x, [])
  | y :: ys =>
    if swapNeeded x y then
      ((selOne y ys).1, x :: (selOne y ys).2)
    else
      ((selOne x ys).1, y :: (selOne x ys).2)

theorem selOne_snd_length (x : DirEntry) :
    ∀ l : List DirEntry, (selOne x l).2.length = l.length := by
  intro l
  induction l generalizing x with
  | nil => rfl
  | cons y ys ih =>
    unfold selOne
    split <;> simp [ih]

/-- Reference form of the whole double loop: repeatedly select the
least remaining element. -/
def selSort : List DirEntry → List DirEntry
  | [] => []
  | x :: xs => (selOne x xs).1 :: selSort (selOne x xs).2
termination_by l => l.length
decreasing_by simp [selOne_snd_length]

theorem swapNeeded_irrefl (a : DirEntry) : swapNeeded a a = false := by
  unfold swapNeeded
  cases h : a.isDir <;> simp [h, ltStrB_irrefl]

theorem selOne_perm (x : DirEntry) :
    ∀ l : List DirEntry,
      List.Perm ((selOne x l).1 :: (selOne x l).2) (x :: l) := by
  intro l
  induction l generalizing x with
  | nil => exact List.Perm.refl _
  | cons y ys ih =>
    unfold selOne
    split
    · dsimp only
      exact (List.Perm.swap _ _ _).trans ((ih y).cons x)
    · dsimp only
      exact (List.Perm.swap _ _ _).trans
        (((ih x).cons y).trans (List.Perm.swap _ _ _))

theorem selOne_min (x : DirEntry) :
    ∀ l : List DirEntry,
      (∀ z ∈ (selOne x l).2, swapNeeded (selOne x l).1 z = false) ∧
      swapNeeded (selOne x l).1 x = false := by
  intro l
  induction l generalizing x with
  | nil =>
    refine ⟨?_, swapNeeded_irrefl x⟩
    intro z hz
    cases hz
  | cons y ys ih =>
    unfold selOne
    split
    · rename_i hsw
      dsimp only
      obtain ⟨hz, hy⟩ := ih y
      have hmx : swapNeeded (selOne y ys).1 x = false :=
        notSwap_trans hy (swapNeeded_asymm hsw)
      refine ⟨?_, hmx⟩
      intro z hzm
      rcases List.mem_cons.1 hzm with h | h
      · subst h; exact hmx
      · exact hz z h
    · rename_i hsw
      dsimp only
      obtain ⟨hz, hx⟩ := ih x
      have hns : swapNeeded x y = false := by
        cases h : swapNeeded x y
        · rfl
        · exact absurd h hsw
      refine ⟨?_, hx⟩
      intro z hzm
      rcases List.mem_cons.1 hzm with h | h
      · subst h; exact notSwap_trans hx hns
      · exact hz z h

theorem selSort_perm :
    ∀ (n : Nat) (l : List DirEntry), l.length = n →
      List.Perm (selSort l) l := by
  intro n
  induction n with
  | zero =>
    intro l hl
    rw [List.eq_nil_of_length_eq_zero hl]
    simp [selSort]
  | succ m ih =>
    intro l hl
    cases l with
    | nil => cases hl
    | cons x xs =>
      rw [selSort]
      simp only [List.length_cons] at hl
      have hlen : (selOne x xs).2.length = m := by
        rw [selOne_snd_length]; omega
      exact ((ih _ hlen).cons _).trans (selOne_perm x xs)

theorem selSort_sorted :
    ∀ (n : Nat) (l : List DirEntry), l.length = n →
      List.Pairwise (fun a b => swapNeeded a b = false) (selSort l) := by
  intro n
  induction n with
  | zero =>
    intro l hl
    rw [List.eq_nil_of_length_eq_zero hl]
    simp [selSort]
  | succ m ih =>
    intro l hl
    cases l with
    | nil => cases hl
    | cons x xs =>
      rw [selSort]
      simp only [List.length_cons] at hl
      have hlen : (selOne x xs).2.length = m := by
        rw [selOne_snd_length]; omega
      refine List.pairwise_cons.2 ⟨?_, ih _ hlen⟩
      intro b hb
      have hbmem : b ∈ (selOne x xs).2 :=
        (selSort_perm m _ hlen).subset hb
      exact (selOne_min x xs).1 b hbmem

/-! ### The double loop computes the selection sort -/

theorem set_append_shift {α : Type} (pre rest : List α) (d : Nat) (v : α) :
    (pre ++ rest).set (pre.length + d) v = pre ++ rest.set d v := by
  rw [List.set_append_right]
  · simp
  · omega

theorem get_append_shift {α : Type} (pre rest : List α) (d : Nat)
    (h1 : pre.length + d < (pre ++ rest).length) (h2 : d < rest.length) :
    (pre ++ rest).get ⟨pre.length + d, h1⟩ = rest.get ⟨d, h2⟩ := by
  simp only [List.get_eq_getElem]
  rw [List.getElem_append_right (by omega)]
  congr 1
  omega

theorem maybeSwap_shift (pre rest : List DirEntry) (di dj : Nat) :
    maybeSwap (pre ++ rest) (pre.length + di) (pre.length + dj) =
      pre ++ maybeSwap rest di dj := by
  unfold maybeSwap
  by_cases hdi : di < rest.length
  · have hi : pre.length + di < (pre ++ rest).length := by simp; omega
    rw [dif_pos hi, dif_pos hdi]
    by_cases hdj : dj < rest.length
    · have hj : pre.length + dj < (pre ++ rest).length := by simp; omega
      rw [dif_pos hj, dif_pos hdj]
      rw [get_append_shift pre rest di hi hdi, get_append_shift pre rest dj hj hdj]
      by_cases hsw :
          swapNeeded (rest.get ⟨di, hdi⟩) (rest.get ⟨dj, hdj⟩) = true
      · rw [if_pos hsw, if_pos hsw, set_append_shift, set_append_shift]
      · rw [if_neg hsw, if_neg hsw]
    · have hj : ¬ (pre.length + dj < (pre ++ rest).length) := by simp; omega
      rw [dif_neg hj, dif_neg hdj]
  · have hi : ¬ (pre.length + di < (pre ++ rest).length) := by simp; omega
    rw [dif_neg hi, dif_neg hdi]

theorem innerLoopCnt_shift (pre : List DirEntry) (di : Nat) :
    ∀ (cnt : Nat) (rest : List DirEntry) (dj : Nat),
      innerLoopCnt (pre.length + di) cnt (pre ++ rest) (pre.length + dj) =
        pre ++ innerLoopCnt di cnt rest dj := by
  intro cnt
  induction cnt with
  | zero => intro rest dj; rfl
  | succ m ih =>
    intro rest dj
    show innerLoopCnt (pre.length + di) m
        (maybeSwap (pre ++ rest) (pre.length + di) (pre.length + dj))
        (pre.length + dj + 1) = _
    rw [maybeSwap_shift]
    have harith : pre.length + dj + 1 = pre.length + (dj + 1) := by omega
    rw [harith, ih]
    rfl

theorem maybeSwap_head (mid suf : List DirEntry) (x y : DirEntry) :
    maybeSwap (x :: (mid ++ y :: suf)) 0 (mid.length + 1) =
      if swapNeeded x y then y :: (mid ++ x :: suf)
      else x :: (mid ++ y :: suf) := by
  unfold maybeSwap
  have hi : 0 < (x :: (mid ++ y :: suf)).length := by simp
  have hj : mid.length + 1 < (x :: (mid ++ y :: suf)).length := by simp
  rw [dif_pos hi, dif_pos hj]
  have hg0 : (x :: (mid ++ y :: suf)).get ⟨0, hi⟩ = x := rfl
  have hrw : x :: (mid ++ y :: suf) = (x :: mid) ++ y :: suf := by simp
  have hj2 : mid.length + 1 < ((x :: mid) ++ y :: suf).length := by simp
  have hgj : (x :: (mid ++ y :: suf)).get ⟨mid.length + 1, hj⟩ = y := by
    have h3 : (x :: mid).length + 0 = mid.length + 1 := by simp
    rw [List.get_of_eq hrw]
    rw [show (⟨mid.length + 1, by rw [← hrw]; exact hj⟩ :
          Fin ((x :: mid) ++ y :: suf).length) =
        ⟨(x :: mid).length + 0, by simp⟩ from by simp [Fin.ext_iff]]
    rw [get_append_shift (x :: mid) (y :: suf) 0 (by simp) (by simp)]
    rfl
  rw [hg0, hgj]
  by_cases hsw : swapNeeded x y = true
  · rw [if_pos hsw, if_pos hsw]
    have hs1 : (x :: (mid ++ y :: suf)).set 0 y = y :: (mid ++ y :: suf) := rfl
    rw [hs1]
    have hrw2 : y :: (mid ++ y :: suf) = (y :: mid) ++ y :: suf := by simp
    rw [hrw2]
    have h4 : mid.length + 1 = (y :: mid).length + 0 := by simp
    rw [h4, set_append_shift]
    simp
  · rw [if_neg hsw, if_neg hsw]

theorem innerLoopCnt_zero_sel :
    ∀ (suf mid : List DirEntry) (x : DirEntry),
      innerLoopCnt 0 suf.length (x :: (mid ++ suf)) (mid.length + 1) =
        (selOne x suf).1 :: (mid ++ (selOne x suf).2) := by
  intro suf
  induction suf with
  | nil =>
    intro mid x
    simp [innerLoopCnt, selOne]
  | cons y ys ih =>
    intro mid x
    show innerLoopCnt 0 ys.length
        (maybeSwap (x :: (mid ++ y :: ys)) 0 (mid.length + 1))
        (mid.length + 1 + 1) = _
    rw [maybeSwap_head]
    unfold selOne
    by_cases hsw : swapNeeded x y = true
    · rw [if_pos hsw, if_pos hsw]
      dsimp only
      have harr : y :: (mid ++ x :: ys) = y :: ((mid ++ [x]) ++ ys) := by simp
      have hcnt : mid.length + 1 + 1 = (mid ++ [x]).length + 1 := by simp
      rw [harr, hcnt, ih (mid ++ [x]) y]
      simp
    · rw [if_neg hsw, if_neg hsw]
      dsimp only
      have harr : x :: (mid ++ y :: ys) = x :: ((mid ++ [y]) ++ ys) := by simp
      have hcnt : mid.length + 1 + 1 = (mid ++ [y]).length + 1 := by simp
      rw [harr, hcnt, ih (mid ++ [y]) x]
      simp

theorem innerLoop_select (pre suf : List DirEntry) (x : DirEntry) :
    innerLoopAux pre.length ((pre ++ x :: suf).length) (pre ++ x :: suf)
        (pre.length + 1) =
      pre ++ (selOne x suf).1 :: (selOne x suf).2 := by
  unfold innerLoopAux
  have hcnt : (pre ++ x :: suf).length - (pre.length + 1) = suf.length := by
    simp
    omega
  rw [hcnt]
  rw [show innerLoopCnt pre.length suf.length (pre ++ x :: suf)
        (pre.length + 1) =
      pre ++ innerLoopCnt 0 suf.length (x :: suf) 1 from
    innerLoopCnt_shift pre 0 suf.length (x :: suf) 1]
  rw [show innerLoopCnt 0 suf.length (x :: suf) 1 =
      (selOne x suf).1 :: ([] ++ (selOne x suf).2) from
    innerLoopCnt_zero_sel suf [] x]
  rfl

theorem outerLoopCnt_sel :
    ∀ (cnt : Nat) (rest pre : List DirEntry), rest.length = cnt →
      outerLoopCnt (pre ++ rest).length cnt (pre ++ rest) pre.length =
        pre ++ selSort rest := by
  intro cnt
  induction cnt with
  | zero =>
    intro rest pre hl
    rw [List.eq_nil_of_length_eq_zero hl]
    simp [outerLoopCnt, selSort]
  | succ m ih =>
    intro rest pre hl
    cases rest with
    | nil => cases hl
    | cons x xs =>
      show outerLoopCnt (pre ++ x :: xs).length m
          (innerLoopAux pre.length (pre ++ x :: xs).length (pre ++ x :: xs)
            (pre.length + 1)) (pre.length + 1) = _
      rw [innerLoop_select pre xs x]
      simp only [List.length_cons] at hl
      have hlen : (selOne x xs).2.length = m := by
        rw [selOne_snd_length]; omega
      have harr : pre ++ (selOne x xs).1 :: (selOne x xs).2 =
          (pre ++ [(selOne x xs).1]) ++ (selOne x xs).2 := by simp
      have hidx : pre.length + 1 = (pre ++ [(selOne x xs).1]).length := by simp
      have hn : (pre ++ x :: xs).length =
          ((pre ++ [(selOne x xs).1]) ++ (selOne x xs).2).length := by
        simp; omega
      rw [harr, hidx, hn, ih (selOne x xs).2 (pre ++ [(selOne x xs).1]) hlen]
      rw [selSort]
      simp

theorem sortChildren_eq_selSort (l : List DirEntry) :
    sortChildren l = selSort l := by
  unfold sortChildren
  have h := outerLoopCnt_sel l.length l [] rfl
  simpa using h

/-! ### C7: sortedness, determinism, recursion at every depth -/

/-- The sibling order of the claim: every directory before every file,
and byte-lexicographically non-decreasing names within one kind. -/
def entOrd (a b : DirEntry) : Prop :=
  (a.isDir = true ∧ b.isDir = false) ∨
  (a.isDir = b.isDir ∧ ltStrB b.name a.name = false)

/-- The identity of a sibling as the filesystem sees it: its kind and
its name. -/
def entryKey (e : DirEntry) : Bool × Str := (e.isDir, e.name)

theorem entOrd_of_notSwap {a b : DirEntry} (h : swapNeeded a b = false) :
    entOrd a b := by
  unfold swapNeeded at h
  unfold entOrd
  cases hda : a.isDir <;> cases hdb : b.isDir <;> simp [hda, hdb] at h ⊢
  · exact h
  · exact h

theorem key_eq_of_both_notSwap {a b : DirEntry}
    (h1 : swapNeeded a b = false) (h2 : swapNeeded b a = false) :
    entryKey a = entryKey b := by
  unfold swapNeeded at h1 h2
  unfold entryKey
  cases hda : a.isDir <;> cases hdb : b.isDir <;> simp [hda, hdb] at h1 h2 ⊢
  · exact ltStrB_eq_of_not h2 h1
  · exact ltStrB_eq_of_not h2 h1

theorem sorted_nodupkeys_unique :
    ∀ (l1 l2 : List DirEntry), List.Perm l1 l2 →
      List.Pairwise (fun a b => swapNeeded a b = false) l1 →
      List.Pairwise (fun a b => swapNeeded a b = false) l2 →
      (l1.map entryKey).Nodup → l1 = l2 := by
  intro l1
  induction l1 with
  | nil =>
    intro l2 hp _ _ _
    exact (hp.nil_eq).symm ▸ rfl
  | cons a as ih =>
    intro l2 hp hs1 hs2 hnd
    cases l2 with
    | nil => exact absurd hp.symm.nil_eq (by simp)
    | cons b bs =>
      by_cases hab : a = b
      · subst hab
        have htl : List.Perm as bs := hp.cons_inv
        have h1 := (List.pairwise_cons.1 hs1).2
        have h2 := (List.pairwise_cons.1 hs2).2
        have hnd2 := (List.nodup_cons.1 hnd).2
        rw [ih bs htl h1 h2 hnd2]
      · exfalso
        have hain : a ∈ b :: bs := hp.subset (List.mem_cons_self a as)
        have hbin : b ∈ a :: as := hp.symm.subset (List.mem_cons_self b bs)
        have habs : a ∈ bs := by
          rcases List.mem_cons.1 hain with h | h
          · exact absurd h hab
          · exact h
        have hbas : b ∈ as := by
          rcases List.mem_cons.1 hbin with h | h
          · exact absurd h.symm hab
          · exact h
        have hba : swapNeeded b a = false :=
          (List.pairwise_cons.1 hs2).1 a habs
        have hab2 : swapNeeded a b = false :=
          (List.pairwise_cons.1 hs1).1 b hbas
        have hkey : entryKey a = entryKey b :=
          key_eq_of_both_notSwap hab2 hba
        have hnotin := (List.nodup_cons.1 hnd).1
        exact hnotin (hkey ▸ List.mem_map_of_mem entryKey hbas)

/-- Sortedness of a DirEntry tree at every depth: every directory node
keeps its children in entOrd order (directories first, lexicographic
within a kind), recursively. -/
inductive SortedTree : DirEntry → Prop where
  | file : ∀ (n p : Str) (c : List DirEntry),
      SortedTree (DirEntry.mk n p false c)
  | dir : ∀ (n p : Str) (c : List DirEntry),
      List.Pairwise entOrd c → (∀ e ∈ c, SortedTree e) →
      SortedTree (DirEntry.mk n p true c)

theorem sortDirectoryTree_name (e : DirEntry) :
    (sortDirectoryTree e).name = e.name := by
  obtain ⟨n, p, d, c⟩ := e
  unfold sortDirectoryTree
  split <;> rfl

theorem sortDirectoryTree_isDir (e : DirEntry) :
    (sortDirectoryTree e).isDir = e.isDir := by
  obtain ⟨n, p, d, c⟩ := e
  unfold sortDirectoryTree
  split <;> rfl

theorem entOrd_sortDirectoryTree {a b : DirEntry} (h : entOrd a b) :
    entOrd (sortDirectoryTree a) (sortDirectoryTree b) := by
  unfold entOrd at h ⊢
  rw [sortDirectoryTree_name, sortDirectoryTree_name,
    sortDirectoryTree_isDir, sortDirectoryTree_isDir]
  exact h

theorem sortedTree_sortDirectoryTree : ∀ e : DirEntry,
    SortedTree (sortDirectoryTree e) := by
  intro e
  obtain ⟨n, p, d, c⟩ := e
  cases d with
  | false =>
    rw [show sortDirectoryTree (DirEntry.mk n p false c) =
        DirEntry.mk n p false c from by unfold sortDirectoryTree; simp]
    exact SortedTree.file n p c
  | true =>
    rw [show sortDirectoryTree (DirEntry.mk n p true c) =
        DirEntry.mk n p true ((sortChildren c).map sortDirectoryTree) from by
      unfold sortDirectoryTree
      simp [List.attach_map_val]]
    refine SortedTree.dir n p _ ?_ ?_
    · rw [sortChildren_eq_selSort]
      refine List.Pairwise.map sortDirectoryTree
        (fun a b hab => entOrd_sortDirectoryTree hab) ?_
      exact List.Pairwise.imp (fun h => entOrd_of_notSwap h)
        (selSort_sorted c.length c rfl)
    · intro e2 he2
      obtain ⟨x, hx, hxe⟩ := List.mem_map.1 he2
      rw [← hxe]
      exact sortedTree_sortDirectoryTree x
termination_by e => sizeOf e
decreasing_by
  have h2 := List.sizeOf_lt_of_mem (mem_of_mem_sortChildren hx)
  simp
  omega

/-- C7: sortDirectoryTree orders every directory node's children with
directories before files and byte-lexicographic names within each
kind, recursively at every depth; and the sibling sort is
deterministic — any two enumeration orders of the same siblings (with
the distinct kind+name keys a real directory guarantees) sort to the
same list. -/
theorem claim_C7 :
    (∀ e : DirEntry, SortedTree (sortDirectoryTree e)) ∧
    (∀ l1 l2 : List DirEntry, List.Perm l1 l2 →
      (l1.map entryKey).Nodup → sortChildren l1 = sortChildren l2) := by
  refine ⟨sortedTree_sortDirectoryTree, ?_⟩
  intro l1 l2 hp hnd
  rw [sortChildren_eq_selSort, sortChildren_eq_selSort]
  refine sorted_nodupkeys_unique (selSort l1) (selSort l2) ?_ ?_ ?_ ?_
  · exact ((selSort_perm l1.length l1 rfl).trans hp).trans
      (selSort_perm l2.length l2 rfl).symm
  · exact selSort_sorted l1.length l1 rfl
  · exact selSort_sorted l2.length l2 rfl
  · have hm : List.Perm ((selSort l1).map entryKey) (l1.map entryKey) :=
      (selSort_perm l1.length l1 rfl).map entryKey
    exact hm.nodup_iff.2 hnd

/-- Witness for C7: a concrete mixed sibling list is sorted at every
depth, and two enumeration orders of the same siblings sort equally. -/
theorem claim_C7_witness :
    SortedTree (sortDirectoryTree (DirEntry.mk (strD "root") [] true
      [DirEntry.mk (strD "b.md") (strD "b.md") false [],
       DirEntry.mk (strD "sub") (strD "sub") true
         [DirEntry.mk (strD "z.md") (strD "sub/z.md") false [],
          DirEntry.mk (strD "a.md") (strD "sub/a.md") false []],
       DirEntry.mk (strD "a.md") (strD "a.md") false []])) ∧
    sortChildren
      [DirEntry.mk (strD "b.md") (strD "b.md") false [],
       DirEntry.mk (strD "Sub") (strD "Sub") true []] =
    sortChildren
      [DirEntry.mk (strD "Sub") (strD "Sub") true [],
       DirEntry.mk (strD "b.md") (strD "b.md") false []] := by
  refine ⟨claim_C7.1 _, claim_C7.2 _ _ ?_ ?_⟩
  · decide
  · decide

/-! ### C6: the reversal loop and the deepest-first order -/

theorem swapIdx_concat {α : Type} (l1 l2 l3 : List α) (x y : α) :
    swapIdx (l1 ++ x :: (l2 ++ y :: l3)) l1.length (l1.length + 1 + l2.length) =
      l1 ++ y :: (l2 ++ x :: l3) := by
  unfold swapIdx
  have hi : l1.length < (l1 ++ x :: (l2 ++ y :: l3)).length := by simp
  have hj : l1.length + 1 + l2.length < (l1 ++ x :: (l2 ++ y :: l3)).length := by
    simp; omega
  rw [dif_pos hi, dif_pos hj]
  simp only [List.get_eq_getElem]
  rw [List.getElem_append_right (le_refl _)]
  rw [List.getElem_append_right (by omega : l1.length ≤ l1.length + 1 + l2.length)]
  simp only [Nat.sub_self]
  have harith : l1.length + 1 + l2.length - l1.length = l2.length + 1 := by omega
  simp only [harith]
  simp only [List.getElem_cons_zero, List.getElem_cons_succ]
  rw [List.getElem_append_right (le_refl _)]
  simp only [Nat.sub_self, List.getElem_cons_zero]
  rw [List.set_append_right _ _ (le_refl _)]
  simp only [Nat.sub_self, List.set_cons_zero]
  rw [List.set_append_right _ _ (by omega : l1.length ≤ l1.length + 1 + l2.length)]
  simp only [harith, List.set_cons_succ]
  rw [List.set_append_right _ _ (le_refl _)]
  simp only [Nat.sub_self, List.set_cons_zero]

theorem swapIdx_concat2 {α : Type} (l1 l2 l3 : List α) (x y : α) (i : Nat)
    (hi : i = l1.length) :
    swapIdx (l1 ++ x :: (l2 ++ y :: l3)) i (l1.length + 1 + l2.length) =
      l1 ++ y :: (l2 ++ x :: l3) := by
  subst hi
  exact swapIdx_concat l1 l2 l3 x y

theorem swapPairAux_spec {α : Type} :
    ∀ (k : Nat) (left midl right : List α),
      left.length = k → right.length = k →
      swapPairAux (left ++ midl ++ right) k =
        right.reverse ++ midl ++ left.reverse := by
  intro k
  induction k with
  | zero =>
    intro left midl right hL hR
    rw [List.eq_nil_of_length_eq_zero hL, List.eq_nil_of_length_eq_zero hR]
    simp [swapPairAux]
  | succ k ih =>
    intro left midl right hL hR
    cases right with
    | nil => cases hR
    | cons y r2 =>
      have hne : left ≠ [] := by
        intro h; subst h; simp at hL
      have hleft : left = left.dropLast ++ [left.getLast hne] :=
        (List.dropLast_append_getLast hne).symm
      have hl2 : left.dropLast.length = k := by
        rw [List.length_dropLast]; omega
      have hr2 : r2.length = k := by
        simp at hR; omega
      show swapPairAux
        (swapIdx (left ++ midl ++ y :: r2) k
          ((left ++ midl ++ y :: r2).length - 1 - k)) k = _
      have hshape : left ++ midl ++ y :: r2 =
          left.dropLast ++ left.getLast hne :: (midl ++ y :: r2) := by
        conv_lhs => rw [hleft]
        simp
      have hidx : (left ++ midl ++ y :: r2).length - 1 - k =
          left.dropLast.length + 1 + midl.length := by
        simp
        omega
      rw [hidx, hshape]
      rw [swapIdx_concat2 left.dropLast midl r2 (left.getLast hne) y k hl2.symm]
      have hsh3 : left.dropLast ++ y :: (midl ++ left.getLast hne :: r2) =
          (left.dropLast ++ (y :: (midl ++ [left.getLast hne]))) ++ r2 := by
        simp
      rw [hsh3]
      rw [show (left.dropLast ++ (y :: (midl ++ [left.getLast hne]))) ++ r2 =
          left.dropLast ++ (y :: (midl ++ [left.getLast hne])) ++ r2 from rfl]
      rw [ih left.dropLast (y :: (midl ++ [left.getLast hne])) r2 hl2 hr2]
      conv_rhs => rw [hleft]
      simp

theorem reverseInPlace_eq_reverse {α : Type} (l : List α) :
    reverseInPlace l = l.reverse := by
  have hdec : l = l.take (l.length / 2) ++
      ((l.drop (l.length / 2)).take (l.length - 2 * (l.length / 2)) ++
       (l.drop (l.length / 2)).drop (l.length - 2 * (l.length / 2))) := by
    rw [List.take_append_drop, List.take_append_drop]
  have hA : (l.take (l.length / 2)).length = l.length / 2 := by
    rw [List.length_take]; omega
  have hC : ((l.drop (l.length / 2)).drop
      (l.length - 2 * (l.length / 2))).length = l.length / 2 := by
    rw [List.length_drop, List.length_drop]; omega
  have hB : ((l.drop (l.length / 2)).take
      (l.length - 2 * (l.length / 2))).length ≤ 1 := by
    rw [List.length_take, List.length_drop]; omega
  have hBrev : ((l.drop (l.length / 2)).take
      (l.length - 2 * (l.length / 2))).reverse =
      (l.drop (l.length / 2)).take (l.length - 2 * (l.length / 2)) := by
    generalize (l.drop (l.length / 2)).take (l.length - 2 * (l.length / 2)) = B at hB ⊢
    cases B with
    | nil => rfl
    | cons b bs =>
      cases bs with
      | nil => rfl
      | cons b2 bs2 => simp at hB
  show swapPairAux l (l.length / 2) = l.reverse
  generalize hk : l.length / 2 = k at hA hC hB hBrev hdec ⊢
  conv_lhs => rw [hdec]
  conv_rhs => rw [hdec]
  rw [show l.take k ++
      ((l.drop k).take (l.length - 2 * k) ++
       (l.drop k).drop (l.length - 2 * k)) =
      l.take k ++
      (l.drop k).take (l.length - 2 * k) ++
      (l.drop k).drop (l.length - 2 * k) from by simp]
  rw [swapPairAux_spec k _ _ _ hA hC]
  simp [List.reverse_append, hBrev, List.append_assoc]
  have hfin : (List.drop (k + (l.length - 2 * k)) l).reverse ++
      ((l.drop k).take (l.length - 2 * k) ++ (l.take k).reverse) =
      (l.take k ++ ((l.drop k).take (l.length - 2 * k) ++
        (l.drop k).drop (l.length - 2 * k))).reverse := by
    simp only [List.reverse_append, List.append_assoc, hBrev, List.drop_drop]
  rw [hfin, ← hdec]

theorem attach_flatMap {α β : Type} (l : List α) (g : α → List β) :
    l.attach.flatMap (fun x => g x.1) = l.flatMap g := by
  show (l.attach.map (fun x => g x.1)).flatten = (l.map g).flatten
  rw [List.attach_map_val l g]

theorem walkDirs_eq (pre : List Str) (es : List (Str × FsTree)) :
    walkDirs pre es = (sortEntries es).flatMap (walkF pre) := by
  rw [walkDirs]
  have hb : (fun (x : {e // e ∈ sortEntries es}) =>
      (match x with
      | ⟨(n, FsTree.dir sub), _⟩ => (pre ++ [n]) :: walkDirs (pre ++ [n]) sub
      | ⟨(_, FsTree.file _), _⟩ => ([] : List (List Str)))) =
      (fun x => walkF pre x.1) := by
    funext x
    obtain ⟨⟨n, t⟩, hm⟩ := x
    cases t <;> rfl
  rw [hb, attach_flatMap]

theorem allCongr {α : Type} {l : List α} {f g : α → Bool}
    (h : ∀ x ∈ l, f x = g x) : l.all f = l.all g := by
  induction l with
  | nil => rfl
  | cons x xs ih =>
    simp only [List.all_cons]
    rw [h x (List.mem_cons_self x xs),
      ih (fun y hy => h y (List.mem_cons_of_mem x hy))]

theorem entsSize_pos : ∀ es : List (Str × FsTree), 1 ≤ entsSize es := by
  intro es
  cases es with
  | nil => simp [entsSize]
  | cons e rest =>
    obtain ⟨n, t⟩ := e
    simp [entsSize]
    omega

theorem fsSize_pos : ∀ t : FsTree, 1 ≤ fsSize t := by
  intro t
  cases t with
  | file c => simp [fsSize]
  | dir es => simp [fsSize]

theorem fsSize_mem_bound :
    ∀ {es : List (Str × FsTree)} {n : Str} {t : FsTree},
      (n, t) ∈ es → fsSize t + 2 ≤ entsSize es := by
  intro es
  induction es with
  | nil => intro n t h; cases h
  | cons e rest ih =>
    intro n t h
    obtain ⟨m, t2⟩ := e
    rcases List.mem_cons.1 h with h1 | h1
    · have hn : t2 = t := by injection h1 with a b; exact b.symm
      subst hn
      have := entsSize_pos rest
      simp [entsSize]
      omega
    · have h2 := ih h1
      have := fsSize_pos t2
      simp [entsSize]
      omega

theorem entsSize_mem_dir {es : List (Str × FsTree)} {n : Str}
    {sub : List (Str × FsTree)} (h : (n, FsTree.dir sub) ∈ es) :
    entsSize sub + 3 ≤ entsSize es := by
  have h2 := fsSize_mem_bound h
  simp [fsSize] at h2
  omega

theorem wfEntriesF_congr :
    ∀ (f1 : Nat), ∀ {f2 : Nat} {es : List (Str × FsTree)},
      entsSize es ≤ f1 → entsSize es ≤ f2 →
      wfEntriesF f1 es = wfEntriesF f2 es := by
  intro f1
  induction f1 with
  | zero =>
    intro f2 es h1 _
    have := entsSize_pos es
    omega
  | succ k ih =>
    intro f2 es h1 h2
    have hpos := entsSize_pos es
    cases f2 with
    | zero => omega
    | succ k2 =>
      unfold wfEntriesF
      congr 1
      apply allCongr
      intro e he
      obtain ⟨n, t⟩ := e
      cases t with
      | file c => rfl
      | dir sub =>
        have hsz := entsSize_mem_dir he
        exact ih (by omega) (by omega)

theorem wfEntries_nodup {es : List (Str × FsTree)}
    (h : wfEntries es = true) : (es.map Prod.fst).Nodup := by
  unfold wfEntries at h
  have hpos := entsSize_pos es
  cases hsz : entsSize es with
  | zero => omega
  | succ k =>
    rw [hsz] at h
    unfold wfEntriesF at h
    rw [Bool.and_eq_true] at h
    exact of_decide_eq_true h.1

theorem wfEntries_sub {es : List (Str × FsTree)} {n : Str}
    {sub : List (Str × FsTree)} (h : wfEntries es = true)
    (hm : (n, FsTree.dir sub) ∈ es) : wfEntries sub = true := by
  unfold wfEntries at h ⊢
  have hpos := entsSize_pos es
  have hsub := entsSize_mem_dir hm
  cases hsz : entsSize es with
  | zero => omega
  | succ k =>
    rw [hsz] at h
    unfold wfEntriesF at h
    rw [Bool.and_eq_true] at h
    have h3 := List.all_eq_true.1 h.2 (n, FsTree.dir sub) hm
    simp only at h3
    rw [show wfEntriesF (entsSize sub) sub = wfEntriesF k sub from
      wfEntriesF_congr _ (le_refl _) (by omega)]
    exact h3

theorem walkDirs_mem_prefix :
    ∀ (fuel : Nat) (es : List (Str × FsTree)) (pre : List Str)
      (q : List Str), entsSize es ≤ fuel → q ∈ walkDirs pre es →
      ∃ n, n ∈ es.map Prod.fst ∧ (pre ++ [n]) <+: q := by
  intro fuel
  induction fuel with
  | zero =>
    intro es pre q h1 _
    have := entsSize_pos es
    omega
  | succ k ih =>
    intro es pre q h1 hq
    rw [walkDirs_eq] at hq
    obtain ⟨e, hemem, hqe⟩ := List.mem_flatMap.1 hq
    obtain ⟨n, t⟩ := e
    have hees : (n, t) ∈ es := (sortEntries_perm es).subset hemem
    cases t with
    | file c => cases hqe
    | dir sub =>
      refine ⟨n, List.mem_map_of_mem Prod.fst hees, ?_⟩
      unfold walkF at hqe
      rcases List.mem_cons.1 hqe with h2 | h2
      · rw [h2]
      · have hsz := entsSize_mem_dir hees
        obtain ⟨n2, _, hpre⟩ := ih sub (pre ++ [n]) q (by omega) h2
        exact List.IsPrefix.trans (List.prefix_append _ _) hpre

theorem walkF_prefix {pre : List Str} {n : Str} {t : FsTree}
    {p : List Str} (fuel : Nat) (hs : fsSize t ≤ fuel + 1)
    (hp : p ∈ walkF pre (n, t)) : (pre ++ [n]) <+: p := by
  cases t with
  | file c => cases hp
  | dir sub =>
    unfold walkF at hp
    rcases List.mem_cons.1 hp with h2 | h2
    · rw [h2]
    · have hss : entsSize sub ≤ fuel := by
        simp [fsSize] at hs; omega
      obtain ⟨n2, _, hpre⟩ :=
        walkDirs_mem_prefix fuel sub (pre ++ [n]) p hss h2
      exact List.IsPrefix.trans (List.prefix_append _ _) hpre

theorem pairwise_blocks (k : Nat)
    (hih : ∀ (es2 : List (Str × FsTree)) (pre2 : List Str),
      entsSize es2 ≤ k → wfEntries es2 = true →
      List.Pairwise (fun p q => ¬ (q <+: p)) (walkDirs pre2 es2)) :
    ∀ (ss es : List (Str × FsTree)) (pre : List Str),
      entsSize es ≤ k + 1 → wfEntries es = true →
      (∀ e ∈ ss, e ∈ es) → (ss.map Prod.fst).Nodup →
      List.Pairwise (fun p q => ¬ (q <+: p)) (ss.flatMap (walkF pre)) := by
  intro ss
  induction ss with
  | nil =>
    intro es pre _ _ _ _
    simp
  | cons e ss2 ihs =>
    intro es pre hsz hwf hsub hnd
    obtain ⟨n, t⟩ := e
    show List.Pairwise _ (walkF pre (n, t) ++ ss2.flatMap (walkF pre))
    have hmem : (n, t) ∈ es := hsub _ (List.mem_cons_self _ _)
    have hft : fsSize t + 2 ≤ entsSize es := fsSize_mem_bound hmem
    refine List.pairwise_append.2 ⟨?_, ?_, ?_⟩
    · cases t with
      | file c => exact List.Pairwise.nil
      | dir sub =>
        have hszsub := entsSize_mem_dir hmem
        refine List.pairwise_cons.2 ⟨?_, ?_⟩
        · intro q hq hqp
          obtain ⟨n2, _, hpre⟩ :=
            walkDirs_mem_prefix k sub (pre ++ [n]) q (by omega) hq
          have hl1 := hpre.length_le
          have hl2 := hqp.length_le
          simp at hl1 hl2
          omega
        · exact hih sub (pre ++ [n]) (by omega) (wfEntries_sub hwf hmem)
    · exact ihs es pre hsz hwf
        (fun e2 he2 => hsub e2 (List.mem_cons_of_mem _ he2))
        (List.nodup_cons.1 hnd).2
    · intro p hp q hq
      have hp2 : (pre ++ [n]) <+: p := walkF_prefix k (by omega) hp
      obtain ⟨e2, he2, hq2⟩ := List.mem_flatMap.1 hq
      obtain ⟨n2, t2⟩ := e2
      have hmem2 : (n2, t2) ∈ es := hsub _ (List.mem_cons_of_mem _ he2)
      have hft2 : fsSize t2 + 2 ≤ entsSize es := fsSize_mem_bound hmem2
      have hq3 : (pre ++ [n2]) <+: q := walkF_prefix k (by omega) hq2
      intro hqp
      have hpn2 : (pre ++ [n2]) <+: p := hq3.trans hqp
      have heq : pre ++ [n2] = pre ++ [n] := by
        rcases List.prefix_or_prefix_of_prefix hpn2 hp2 with h | h
        · exact h.eq_of_length (by simp)
        · exact (h.eq_of_length (by simp)).symm
      have hn2n : n2 = n := by simpa using heq
      have hin : n2 ∈ ss2.map Prod.fst := List.mem_map_of_mem Prod.fst he2
      rw [hn2n] at hin
      exact (List.nodup_cons.1 hnd).1 hin

theorem walkDirs_pairwise :
    ∀ (fuel : Nat) (es : List (Str × FsTree)) (pre : List Str),
      entsSize es ≤ fuel → wfEntries es = true →
      List.Pairwise (fun p q => ¬ (q <+: p)) (walkDirs pre es) := by
  intro fuel
  induction fuel with
  | zero =>
    intro es pre h1 _
    have := entsSize_pos es
    omega
  | succ k ih =>
    intro es pre h1 hwf
    rw [walkDirs_eq]
    refine pairwise_blocks k ih (sortEntries es) es pre h1 hwf
      (fun e he => (sortEntries_perm es).subset he) ?_
    have hperm : List.Perm ((sortEntries es).map Prod.fst)
        (es.map Prod.fst) := (sortEntries_perm es).map Prod.fst
    exact hperm.nodup_iff.2 (wfEntries_nodup hwf)

/-- C6: the processing order of RenameDirectoriesToLowercase is the
exact reverse of the top-down walk order, and on a well-formed tree
(distinct sibling names) it is deepest-first: no directory is
processed before any of its subdirectories — equivalently, no earlier
element of the order is a proper prefix (ancestor) of a later one. -/
theorem claim_C6 :
    (∀ fs : List (Str × FsTree),
      renameProcessOrder fs = (walkDirs [] fs).reverse) ∧
    (∀ fs : List (Str × FsTree), wfEntries fs = true →
      List.Pairwise (fun p q => ¬ properPrefix p q)
        (renameProcessOrder fs)) := by
  constructor
  · intro fs
    exact reverseInPlace_eq_reverse _
  · intro fs hwf
    rw [show renameProcessOrder fs = (walkDirs [] fs).reverse from
      reverseInPlace_eq_reverse _]
    rw [List.pairwise_reverse]
    refine List.Pairwise.imp ?_
      (walkDirs_pairwise (entsSize fs) fs [] (le_refl _) hwf)
    intro a b h hcon
    exact h hcon.1

/-- Witness for C6: concrete tree with nested and sibling directories. -/
theorem claim_C6_witness :
    renameProcessOrder
      [(strD "B", FsTree.dir
          [(strD "C", FsTree.dir []), (strD "A", FsTree.dir [])]),
       (strD "a", FsTree.dir [])] =
      (walkDirs []
        [(strD "B", FsTree.dir
            [(strD "C", FsTree.dir []), (strD "A", FsTree.dir [])]),
         (strD "a", FsTree.dir [])]).reverse ∧
    List.Pairwise (fun p q => ¬ properPrefix p q)
      (renameProcessOrder
        [(strD "B", FsTree.dir
            [(strD "C", FsTree.dir []), (strD "A", FsTree.dir [])]),
         (strD "a", FsTree.dir [])]) :=
  ⟨claim_C6.1 _, claim_C6.2 _ (by decide)⟩

/-! ### C8: outline and tree correspondence -/

theorem docsOf_eq (es : List DirEntry) : docsOf es = es.flatMap docsOfE := by
  rw [docsOf]
  have hb : (fun (x : {e // e ∈ es}) =>
      (match x with
      | ⟨DirEntry.mk _ _ true ch, _⟩ => docsOf ch
      | ⟨DirEntry.mk nm pth false _, _⟩ =>
        if hasSuffixB (toLowerStr nm) mdExt then
          [(trimSuffix nm mdExt, pth)]
        else ([] : List (Str × Str)))) =
      (fun x => docsOfE x.1) := by
    funext x
    obtain ⟨e, hm⟩ := x
    obtain ⟨nm, pth, d, ch⟩ := e
    cases d <;> rfl
  rw [hb, attach_flatMap]

theorem buildChildren_eq (pfx relPath : Str) (es : List (Str × FsTree)) :
    buildChildren pfx relPath es = (sortEntries es).flatMap (buildF pfx relPath) := by
  rw [buildChildren]
  have hb : (fun (x : {e // e ∈ sortEntries es}) =>
      (match x with
      | ⟨(name, FsTree.dir sub), _⟩ =>
        if skipName pfx name then []
        else
          [DirEntry.mk name
            (if hasSuffixB (toLowerStr name) mdExt then
              displayPathAfterRename
                (if relPath = [] then name else relPath ++ strD "/" ++ name)
            else if relPath = [] then name else relPath ++ strD "/" ++ name)
            true
            (buildChildren pfx
              (if relPath = [] then name else relPath ++ strD "/" ++ name) sub)]
      | ⟨(name, FsTree.file _), _⟩ =>
        if skipName pfx name then []
        else if hasSuffixB (toLowerStr name) mdExt then
          [DirEntry.mk name
            (displayPathAfterRename
              (if relPath = [] then name else relPath ++ strD "/" ++ name))
            false []]
        else [])) =
      (fun x => buildF pfx relPath x.1) := by
    funext x
    obtain ⟨⟨n, t⟩, hm⟩ := x
    cases t <;> rfl
  rw [hb, attach_flatMap]

theorem convertibleDocs_eq (pfx relPath : Str) (es : List (Str × FsTree)) :
    convertibleDocs pfx relPath es = es.flatMap (convertF pfx relPath) := by
  rw [convertibleDocs]
  have hb : (fun (x : {e // e ∈ es}) =>
      (match x with
      | ⟨(name, FsTree.dir sub), _⟩ =>
        if skipName pfx name then []
        else convertibleDocs pfx
          (if relPath = [] then name else relPath ++ strD "/" ++ name) sub
      | ⟨(name, FsTree.file _), _⟩ =>
        if skipName pfx name then []
        else if hasSuffixB (toLowerStr name) mdExt then
          [(trimSuffix name mdExt,
            displayPathAfterRename
              (if relPath = [] then name else relPath ++ strD "/" ++ name))]
        else ([] : List (Str × Str)))) =
      (fun x => convertF pfx relPath x.1) := by
    funext x
    obtain ⟨⟨n, t⟩, hm⟩ := x
    cases t <;> rfl
  rw [hb, attach_flatMap]

theorem docsOf_cons (e : DirEntry) (rest : List DirEntry) :
    docsOf (e :: rest) = docsOfE e ++ docsOf rest := by
  rw [docsOf_eq, docsOf_eq, List.flatMap_cons]

theorem docsOf_append (l1 l2 : List DirEntry) :
    docsOf (l1 ++ l2) = docsOf l1 ++ docsOf l2 := by
  rw [docsOf_eq, docsOf_eq, docsOf_eq, List.flatMap_append]

theorem linkedLines_cons (x : SummaryLine) (xs : List SummaryLine) :
    linkedLines (x :: xs) =
      (match x with
      | .dirLine _ _ => []
      | .linkLine _ lab tgt => [(lab, tgt)]) ++ linkedLines xs := by
  cases x <;> rfl

theorem linkedLines_append (l1 l2 : List SummaryLine) :
    linkedLines (l1 ++ l2) = linkedLines l1 ++ linkedLines l2 := by
  induction l1 with
  | nil => rfl
  | cons x xs ih =>
    rw [List.cons_append, linkedLines_cons, linkedLines_cons, ih,
      List.append_assoc]

theorem linkedLines_summaryEntries :
    ∀ (k : Nat) (es : List DirEntry) (d : Nat), sizeOf es ≤ k →
      linkedLines (summaryEntries es d) = docsOf es := by
  intro k
  induction k with
  | zero =>
    intro es d h
    exfalso
    cases es <;> simp at h <;> omega
  | succ k ih =>
    intro es d h
    cases es with
    | nil =>
      rw [docsOf_eq]
      simp [summaryEntries, linkedLines]
    | cons e rest =>
      obtain ⟨nm, pth, dflag, ch⟩ := e
      have hch : sizeOf ch ≤ k := by simp at h; omega
      have hrest : sizeOf rest ≤ k := by simp at h; omega
      cases dflag with
      | true =>
        rw [show summaryEntries (DirEntry.mk nm pth true ch :: rest) d =
            SummaryLine.dirLine d nm ::
              (summaryEntries ch (d + 1) ++ summaryEntries rest d) from by
          simp [summaryEntries]]
        rw [linkedLines_cons, linkedLines_append, ih ch (d + 1) hch,
          ih rest d hrest, docsOf_cons]
        rfl
      | false =>
        rw [show summaryEntries (DirEntry.mk nm pth false ch :: rest) d =
            (if hasSuffixB (toLowerStr nm) mdExt then
              [SummaryLine.linkLine d (trimSuffix nm mdExt) pth]
            else []) ++ summaryEntries rest d from by
          simp [summaryEntries]]
        rw [linkedLines_append, ih rest d hrest, docsOf_cons]
        by_cases hmd : hasSuffixB (toLowerStr nm) mdExt = true
        · rw [if_pos hmd, linkedLines_cons]
          rw [show docsOfE (DirEntry.mk nm pth false ch) =
            [(trimSuffix nm mdExt, pth)] from by simp [docsOfE, hmd]]
          rfl
        · rw [if_neg hmd]
          rw [show docsOfE (DirEntry.mk nm pth false ch) = [] from by
            simp [docsOfE, hmd]]
          rfl

theorem docsOf_map_sortTree :
    ∀ (k : Nat) (l : List DirEntry), sizeOf l ≤ k →
      List.Perm (docsOf (l.map sortDirectoryTree)) (docsOf l) := by
  intro k
  induction k with
  | zero =>
    intro l h
    exfalso
    cases l <;> simp at h <;> omega
  | succ k ih =>
    intro l
    induction l with
    | nil => intro _; exact List.Perm.refl _
    | cons e rest ihl =>
      intro h
      rw [List.map_cons, docsOf_cons, docsOf_cons]
      have hrest : sizeOf rest ≤ k + 1 := by simp at h; omega
      refine List.Perm.append ?_ (ihl hrest)
      obtain ⟨nm, pth, dflag, c⟩ := e
      cases dflag with
      | false =>
        rw [show sortDirectoryTree (DirEntry.mk nm pth false c) =
            DirEntry.mk nm pth false c from by
          unfold sortDirectoryTree; simp]
      | true =>
        rw [show sortDirectoryTree (DirEntry.mk nm pth true c) =
            DirEntry.mk nm pth true
              ((sortChildren c).map sortDirectoryTree) from by
          unfold sortDirectoryTree
          simp [List.attach_map_val]]
        show List.Perm (docsOf ((sortChildren c).map sortDirectoryTree))
          (docsOf c)
        have hperm : List.Perm (sortChildren c) c := by
          rw [sortChildren_eq_selSort]
          exact selSort_perm c.length c rfl
        have hsz : sizeOf (sortChildren c) ≤ k := by
          rw [List.Perm.sizeOf_eq_sizeOf hperm]
          simp at h
          omega
        refine List.Perm.trans (ih (sortChildren c) hsz) ?_
        rw [docsOf_eq, docsOf_eq]
        exact List.Perm.flatMap_right docsOfE hperm

theorem docsOf_buildChildren :
    ∀ (k : Nat) (pfx relPath : Str) (es : List (Str × FsTree)),
      sizeOf es ≤ k →
      List.Perm (docsOf (buildChildren pfx relPath es))
        (convertibleDocs pfx relPath es) := by
  intro k
  induction k with
  | zero =>
    intro pfx relPath es h
    exfalso
    cases es <;> simp at h <;> omega
  | succ k ih =>
    intro pfx relPath es h
    rw [buildChildren_eq, convertibleDocs_eq]
    have h1 : List.Perm (docsOf ((sortEntries es).flatMap (buildF pfx relPath)))
        (docsOf (es.flatMap (buildF pfx relPath))) := by
      rw [docsOf_eq, docsOf_eq]
      exact List.Perm.flatMap_right docsOfE
        (List.Perm.flatMap_right (buildF pfx relPath) (sortEntries_perm es))
    refine List.Perm.trans h1 ?_
    have h2 : ∀ (ss : List (Str × FsTree)), (∀ e ∈ ss, e ∈ es) →
        List.Perm (docsOf (ss.flatMap (buildF pfx relPath)))
          (ss.flatMap (convertF pfx relPath)) := by
      intro ss
      induction ss with
      | nil => intro _; simp [docsOf_eq]
      | cons e ss2 ihs =>
        intro hsub
        rw [List.flatMap_cons, List.flatMap_cons, docsOf_append]
        refine List.Perm.append ?_
          (ihs fun x hx => hsub x (List.mem_cons_of_mem _ hx))
        obtain ⟨name, t⟩ := e
        have hmem : (name, t) ∈ es := hsub _ (List.mem_cons_self _ _)
        cases t with
        | file c =>
          unfold buildF convertF
          by_cases hskip : skipName pfx name = true
          · simp only [hskip, if_true]
            rw [docsOf_eq]
            rfl
          · simp only [hskip, Bool.false_eq_true, if_false]
            by_cases hmd : hasSuffixB (toLowerStr name) mdExt = true
            · simp only [hmd, if_true]
              rw [docsOf_cons]
              rw [show docsOfE (DirEntry.mk name
                  (displayPathAfterRename
                    (if relPath = [] then name
                    else relPath ++ strD "/" ++ name)) false []) =
                  [(trimSuffix name mdExt,
                    displayPathAfterRename
                      (if relPath = [] then name
                      else relPath ++ strD "/" ++ name))] from by
                simp [docsOfE, hmd]]
              rw [docsOf_eq]
              rfl
            · simp only [hmd, Bool.false_eq_true, if_false]
              rw [docsOf_eq]
              rfl
        | dir sub =>
          have hsz : sizeOf sub ≤ k := by
            have h3 := List.sizeOf_lt_of_mem hmem
            simp at h3
            omega
          unfold buildF convertF
          by_cases hskip : skipName pfx name = true
          · simp only [hskip, if_true]
            rw [docsOf_eq]
            rfl
          · simp only [hskip, Bool.false_eq_true, if_false]
            rw [docsOf_cons]
            rw [show docsOfE (DirEntry.mk name
                (if hasSuffixB (toLowerStr name) mdExt then
                  displayPathAfterRename
                    (if relPath = [] then name
                    else relPath ++ strD "/" ++ name)
                else if relPath = [] then name
                else relPath ++ strD "/" ++ name)
                true
                (buildChildren pfx
                  (if relPath = [] then name
                  else relPath ++ strD "/" ++ name) sub)) =
                docsOf (buildChildren pfx
                  (if relPath = [] then name
                  else relPath ++ strD "/" ++ name) sub) from rfl]
            rw [show docsOf ([] : List DirEntry) = [] from by
              rw [docsOf_eq]; rfl]
            rw [List.append_nil]
            exact ih pfx _ sub hsz
    exact h2 es (fun e he => he)

/-- C8: outline/tree correspondence. The linked entries of the emitted
outline (in particular of generateSummaryMd's body, which is
writeSummaryEntries of the built and sorted tree) are, as a multiset, a
permutation of the convertible documents reachable in the tree — every
linked entry corresponds to exactly one convertible document occurrence
and every convertible document appears exactly once. -/
theorem claim_C8 (pfx rootName : Str) (fs : List (Str × FsTree)) :
    List.Perm
      (linkedLines (summaryEntries
        (buildDirectoryTreeAfterRename pfx rootName fs).children 0))
      (convertibleDocs pfx [] fs) := by
  unfold buildDirectoryTreeAfterRename
  rw [show sortDirectoryTree
      (DirEntry.mk rootName [] true (buildChildren pfx [] fs)) =
      DirEntry.mk rootName [] true
        ((sortChildren (buildChildren pfx [] fs)).map sortDirectoryTree) from by
    unfold sortDirectoryTree
    simp [List.attach_map_val]]
  rw [show (DirEntry.mk rootName [] true
      ((sortChildren (buildChildren pfx [] fs)).map
        sortDirectoryTree)).children =
      (sortChildren (buildChildren pfx [] fs)).map sortDirectoryTree from rfl]
  rw [linkedLines_summaryEntries
    (sizeOf ((sortChildren (buildChildren pfx [] fs)).map sortDirectoryTree))
    _ 0 (le_refl _)]
  have hperm : List.Perm (sortChildren (buildChildren pfx [] fs))
      (buildChildren pfx [] fs) := by
    rw [sortChildren_eq_selSort]
    exact selSort_perm (buildChildren pfx [] fs).length _ rfl
  refine List.Perm.trans
    (docsOf_map_sortTree (sizeOf (sortChildren (buildChildren pfx [] fs)))
      _ (le_refl _)) ?_
  refine List.Perm.trans ?_
    (docsOf_buildChildren (sizeOf fs) pfx [] fs (le_refl _))
  rw [docsOf_eq, docsOf_eq]
  exact List.Perm.flatMap_right docsOfE hperm

/-! ### C9: RenameHtmlFiles produces prefix + lowercased name -/

theorem renameHtml_keeps {pfx : Str} {listing : List Str} {target : Str}
    (hnot : target ∉ listing) :
    ∀ {toProcess cur : List Str}, target ∈ cur →
      (∀ x ∈ toProcess, x ∈ listing) →
      target ∈ toProcess.foldl (renameHtmlStep pfx) cur := by
  intro toProcess
  induction toProcess with
  | nil => intro cur h _; exact h
  | cons x xs ih =>
    intro cur h hsub
    have hx : x ∈ listing := hsub x (List.mem_cons_self x xs)
    have hne : target ≠ x := fun he => hnot (he ▸ hx)
    have hstep : target ∈ renameHtmlStep pfx cur x := by
      unfold renameHtmlStep
      split
      · exact h
      · exact List.mem_cons_of_mem _ ((List.mem_erase_of_ne hne).2 h)
    exact ih hstep (fun y hy => hsub y (List.mem_cons_of_mem x hy))

theorem renameHtml_mem {pfx : Str} {listing : List Str} {name : Str}
    (hnot : renameHtmlNewName pfx name ∉ listing) :
    ∀ {toProcess cur : List Str}, name ∈ toProcess →
      (∀ x ∈ toProcess, x ∈ listing) →
      renameHtmlNewName pfx name ∈ toProcess.foldl (renameHtmlStep pfx) cur := by
  intro toProcess
  induction toProcess with
  | nil => intro cur h; intro _; cases h
  | cons x xs ih =>
    intro cur hmem hsub
    rw [List.foldl_cons]
    by_cases hx : x = name
    · subst hx
      have hstep : renameHtmlNewName pfx x ∈ renameHtmlStep pfx cur x := by
        unfold renameHtmlStep
        split
        · assumption
        · exact List.mem_cons_self _ _
      exact renameHtml_keeps hnot hstep
        (fun y hy => hsub y (List.mem_cons_of_mem x hy))
    · have hmem2 : name ∈ xs := by
        rcases List.mem_cons.1 hmem with h | h
        · exact absurd h.symm hx
        · exact h
      exact ih hmem2 (fun y hy => hsub y (List.mem_cons_of_mem x hy))

/-- C9: for every collected .html file (lowercased name ends in
".html") whose target name is not already taken, RenameHtmlFiles
materializes it under renameHtmlNewName pfx name = pfx ++
lowercase(name) — the prefix followed by the lowercased original
filename. -/
theorem claim_C9 (pfx : Str) (listing : List Str) (name : Str)
    (hmem : name ∈ listing)
    (hhtml : hasSuffixB (toLowerStr name) htmlExt = true)
    (hfree : renameHtmlNewName pfx name ∉ listing) :
    renameHtmlNewName pfx name ∈ renameHtmlFiles pfx listing ∧
    renameHtmlNewName pfx name = pfx ++ toLowerStr name := by
  constructor
  · unfold renameHtmlFiles
    apply renameHtml_mem hfree
    · unfold collectHtmlNames
      exact List.mem_filter.2 ⟨hmem, hhtml⟩
    · intro x hx
      exact List.mem_of_mem_filter hx
  · rfl

/-- Witness for C9: an original Page.HTML in a directory together with
a non-document file becomes _page.html under the default prefix. -/
theorem claim_C9_witness :
    renameHtmlNewName (strD "_") (strD "Page.HTML") ∈
      renameHtmlFiles (strD "_") [strD "Page.HTML", strD "notes.txt"] ∧
    renameHtmlNewName (strD "_") (strD "Page.HTML") = strD "_page.html" := by
  refine ⟨(claim_C9 (strD "_") [strD "Page.HTML", strD "notes.txt"]
    (strD "Page.HTML") (by decide) (by decide) (by decide)).1, by decide⟩

/-! ### C10: the Introduction entry always points at README.md -/

/-- C10: whenever one of the fixed intro names index.html, README.md,
readme.md exists among the output-root entries, the generated outline
starts with the heading followed immediately by the entry
"- [Introduction](README.md)" — the target is README.md no matter
which intro file was found. -/
theorem claim_C10 :
    (∀ names : List Str,
      (strD "index.html" ∈ names ∨ strD "README.md" ∈ names ∨
        strD "readme.md" ∈ names) → hasIntroFile names = true) ∧
    (∀ (pfx rootName : Str) (fs : List (Str × FsTree)),
      hasIntroFile (fs.map Prod.fst) = true →
      (strD "# Summary\n\n- [Introduction](README.md)\n\n") <+:
        generateSummaryMd pfx rootName fs) := by
  constructor
  · intro names h
    unfold hasIntroFile
    simp
    tauto
  · intro pfx rootName fs h
    unfold generateSummaryMd
    rw [if_pos h]
    have hsplit :
        strD "# Summary\n\n- [Introduction](README.md)\n\n" =
          strD "# Summary\n\n" ++ strD "- [Introduction](README.md)\n\n" := by
      decide
    refine ⟨writeSummaryEntries
      (buildDirectoryTreeAfterRename pfx rootName fs).children 0, ?_⟩
    rw [hsplit]

/-- Witness for C10: an output root holding only index.html (no
README.md at all) still gets the entry targeting README.md. -/
theorem claim_C10_witness :
    (strD "# Summary\n\n- [Introduction](README.md)\n\n") <+:
      generateSummaryMd (strD "_") (strD "root")
        [(strD "index.html", FsTree.file (strD "<html></html>"))] :=
  claim_C10.2 (strD "_") (strD "root")
    [(strD "index.html", FsTree.file (strD "<html></html>"))] (by decide)

/-! ### C1 and C2: the link rewriter on well-formed link shapes -/

theorem goodSeg_spec {s : Str} (h : goodSeg s = true) :
    s ≠ [] ∧ s ≠ strD "." ∧ s ≠ strD ".." ∧
      '/' ∉ s ∧ '\\' ∉ s ∧ ')' ∉ s :=
  of_decide_eq_true h

theorem scanLinksF_nil : ∀ f, scanLinksF f [] = [] := by
  intro f
  cases f <;> rfl

theorem scanLinksF_congr :
    ∀ (f1 : Nat) {f2 : Nat} {s : Str}, s.length ≤ f1 → s.length ≤ f2 →
      scanLinksF f1 s = scanLinksF f2 s := by
  intro f1
  induction f1 with
  | zero =>
    intro f2 s h1 _
    have hs : s = [] := List.eq_nil_of_length_eq_zero (Nat.le_zero.1 h1)
    subst hs
    rw [scanLinksF_nil, scanLinksF_nil]
  | succ k ih =>
    intro f2 s h1 h2
    cases s with
    | nil => rw [scanLinksF_nil, scanLinksF_nil]
    | cons c rest =>
      cases f2 with
      | zero => simp at h2
      | succ k2 =>
        simp only [List.length_cons] at h1 h2
        show scanLinksF (k + 1) (c :: rest) = scanLinksF (k2 + 1) (c :: rest)
        unfold scanLinksF
        by_cases hc : c = '['
        · rw [if_pos hc, if_pos hc]
          cases htm : tryMatch rest with
          | none =>
            show c :: scanLinksF k rest = c :: scanLinksF k2 rest
            rw [@ih k2 rest (by omega) (by omega)]
          | some q =>
            obtain ⟨lab, p, a, rem⟩ := q
            have hlen := tryMatch_rem_length htm
            show convertLink lab p a ++ scanLinksF k rem =
              convertLink lab p a ++ scanLinksF k2 rem
            rw [@ih k2 rem (by omega) (by omega)]
        · rw [if_neg hc, if_neg hc]
          show c :: scanLinksF k rest = c :: scanLinksF k2 rest
          rw [@ih k2 rest (by omega) (by omega)]

theorem scanLinks_cons_nolink {c : Char} (s : Str) (hc : c ≠ '[') :
    scanLinks (c :: s) = c :: scanLinks s := by
  show scanLinksF (s.length + 1) (c :: s) = c :: scanLinks s
  unfold scanLinksF
  rw [if_neg hc]
  rfl

theorem scanLinks_append_nolink :
    ∀ (pre s : Str), '[' ∉ pre →
      scanLinks (pre ++ s) = pre ++ scanLinks s := by
  intro pre
  induction pre with
  | nil => intro s _; rfl
  | cons c rest ih =>
    intro s hni
    have hc : c ≠ '[' := fun h => hni (h ▸ List.mem_cons_self c rest)
    rw [List.cons_append, scanLinks_cons_nolink _ hc,
      ih s (fun h => hni (List.mem_cons_of_mem c h)), List.cons_append]

theorem splitAtFirst_of {sep : Char} :
    ∀ {a : Str} (b : Str), sep ∉ a →
      splitAtFirst sep (a ++ sep :: b) = some (a, b) := by
  intro a
  induction a with
  | nil =>
    intro b _
    simp [splitAtFirst]
  | cons c a2 ih =>
    intro b hni
    have hc : c ≠ sep := fun h => hni (h ▸ List.mem_cons_self c a2)
    rw [List.cons_append]
    unfold splitAtFirst
    rw [if_neg hc, ih b (fun h => hni (List.mem_cons_of_mem c h))]

theorem htmlExt_length_le {s : Str} (h : hasSuffixB s htmlExt = true) :
    5 ≤ s.length := by
  have hs := (hasSuffixB_iff _ _).1 h
  have := hs.length_le
  simpa using this

theorem findHtmlSplitAux_of {tgt anchor : Str}
    (hhtml : hasSuffixB tgt htmlExt = true)
    (hmax : ∀ j, j ≤ (tgt ++ anchor).length → tgt.length < j →
      hasSuffixB ((tgt ++ anchor).take j) htmlExt = false) :
    ∀ n, tgt.length ≤ n → n ≤ (tgt ++ anchor).length →
      findHtmlSplitAux (tgt ++ anchor) n = some (tgt, anchor) := by
  intro n
  induction n with
  | zero =>
    intro h1 _
    have := htmlExt_length_le hhtml
    omega
  | succ m ih =>
    intro h1 h2
    unfold findHtmlSplitAux
    by_cases hlt : tgt.length < m + 1
    · rw [if_neg (by rw [hmax (m + 1) h2 hlt]; simp)]
      exact ih (by omega) (by omega)
    · have heq : tgt.length = m + 1 := by omega
      rw [if_pos (by rw [← heq, List.take_left]; exact hhtml)]
      rw [← heq, List.take_left, List.drop_left]

theorem findHtmlSplit_of {tgt anchor : Str}
    (hhtml : hasSuffixB tgt htmlExt = true)
    (hmax : ∀ j, j ≤ (tgt ++ anchor).length → tgt.length < j →
      hasSuffixB ((tgt ++ anchor).take j) htmlExt = false) :
    findHtmlSplit (tgt ++ anchor) = some (tgt, anchor) :=
  findHtmlSplitAux_of hhtml hmax _ (by simp) (le_refl _)

theorem findHtmlSplitAux_none {content : Str}
    (hnone : ∀ j, j ≤ content.length →
      hasSuffixB (content.take j) htmlExt = false) :
    ∀ n, n ≤ content.length → findHtmlSplitAux content n = none := by
  intro n
  induction n with
  | zero => intro _; rfl
  | succ m ih =>
    intro h
    unfold findHtmlSplitAux
    rw [if_neg (by rw [hnone (m + 1) h]; simp)]
    exact ih (by omega)

theorem findHtmlSplit_none {content : Str}
    (hnone : ∀ j, j ≤ content.length →
      hasSuffixB (content.take j) htmlExt = false) :
    findHtmlSplit content = none :=
  findHtmlSplitAux_none hnone _ (le_refl _)

theorem tryMatch_of {lab tgt anchor post : Str}
    (hlab : ']' ∉ lab) (htgt : ')' ∉ tgt) (hanchor : ')' ∉ anchor)
    (hhtml : hasSuffixB tgt htmlExt = true)
    (hmax : ∀ j, j ≤ (tgt ++ anchor).length → tgt.length < j →
      hasSuffixB ((tgt ++ anchor).take j) htmlExt = false) :
    tryMatch (lab ++ ']' :: '(' :: ((tgt ++ anchor) ++ ')' :: post)) =
      some (lab, tgt, anchor, post) := by
  unfold tryMatch
  rw [show lab ++ ']' :: '(' :: ((tgt ++ anchor) ++ ')' :: post) =
      lab ++ ']' :: ('(' :: ((tgt ++ anchor) ++ ')' :: post)) from rfl]
  rw [splitAtFirst_of _ hlab]
  have hca : ')' ∉ tgt ++ anchor := by
    intro h
    rcases List.mem_append.1 h with h | h
    · exact htgt h
    · exact hanchor h
  simp only
  rw [splitAtFirst_of post hca]
  simp only
  rw [findHtmlSplit_of hhtml hmax]

theorem tryMatch_none_of {lab content post : Str}
    (hlab : ']' ∉ lab) (hcontent : ')' ∉ content)
    (hnone : ∀ j, j ≤ content.length →
      hasSuffixB (content.take j) htmlExt = false) :
    tryMatch (lab ++ ']' :: '(' :: (content ++ ')' :: post)) = none := by
  unfold tryMatch
  rw [splitAtFirst_of _ hlab]
  simp only
  rw [splitAtFirst_of post hcontent]
  simp only
  rw [findHtmlSplit_none hnone]

theorem scanLinks_match {lab tgt anchor post : Str}
    (h : tryMatch (lab ++ ']' :: '(' :: ((tgt ++ anchor) ++ ')' :: post)) =
      some (lab, tgt, anchor, post)) :
    scanLinks ('[' :: (lab ++ ']' :: '(' :: ((tgt ++ anchor) ++ ')' :: post))) =
      convertLink lab tgt anchor ++ scanLinks post := by
  show scanLinksF ((lab ++ ']' :: '(' :: ((tgt ++ anchor) ++ ')' :: post)).length + 1)
      ('[' :: (lab ++ ']' :: '(' :: ((tgt ++ anchor) ++ ')' :: post))) =
    convertLink lab tgt anchor ++ scanLinks post
  unfold scanLinksF
  rw [if_pos rfl, h]
  have hlen := tryMatch_rem_length h
  show convertLink lab tgt anchor ++
      scanLinksF ((lab ++ ']' :: '(' :: ((tgt ++ anchor) ++ ')' :: post)).length)
        post = convertLink lab tgt anchor ++ scanLinks post
  rw [scanLinksF_congr _ (le_of_lt hlen) (le_refl _)]
  rfl

theorem scanLinks_nomatch {lab content post : Str}
    (h : tryMatch (lab ++ ']' :: '(' :: (content ++ ')' :: post)) = none) :
    scanLinks ('[' :: (lab ++ ']' :: '(' :: (content ++ ')' :: post))) =
      '[' :: scanLinks (lab ++ ']' :: '(' :: (content ++ ')' :: post)) := by
  show scanLinksF ((lab ++ ']' :: '(' :: (content ++ ')' :: post)).length + 1)
      ('[' :: (lab ++ ']' :: '(' :: (content ++ ')' :: post))) = _
  unfold scanLinksF
  rw [if_pos rfl, h]
  rfl

theorem joinSlash_nil : joinSlash [] = [] := rfl

theorem joinSlash_single (a : Str) : joinSlash [a] = a := by
  simp [joinSlash, List.intercalate]

theorem joinSlash_cons_cons (a b : Str) (t : List Str) :
    joinSlash (a :: b :: t) = a ++ '/' :: joinSlash (b :: t) := by
  simp [joinSlash, List.intercalate, List.intersperse]
  rfl

theorem joinSlash_cons (a : Str) (t : List Str) (ht : t ≠ []) :
    joinSlash (a :: t) = a ++ '/' :: joinSlash t := by
  cases t with
  | nil => exact absurd rfl ht
  | cons b t2 => exact joinSlash_cons_cons a b t2

theorem joinSlash_append_single (b : Str) :
    ∀ (L : List Str), L ≠ [] →
      joinSlash (L ++ [b]) = joinSlash L ++ '/' :: b := by
  intro L
  induction L with
  | nil => intro h; exact absurd rfl h
  | cons a t ih =>
    intro _
    cases t with
    | nil =>
      show joinSlash [a, b] = joinSlash [a] ++ '/' :: b
      rw [joinSlash_cons_cons, joinSlash_single, joinSlash_single]
    | cons c t2 =>
      rw [show (a :: c :: t2) ++ [b] = a :: ((c :: t2) ++ [b]) from rfl,
        joinSlash_cons a ((c :: t2) ++ [b]) (by simp),
        ih (by simp), joinSlash_cons_cons]
      simp

theorem mem_joinSlash {c : Char} :
    ∀ {L : List Str}, c ∈ joinSlash L → c = '/' ∨ ∃ s ∈ L, c ∈ s := by
  intro L
  induction L with
  | nil => intro h; cases h
  | cons a t ih =>
    intro h
    cases t with
    | nil =>
      rw [joinSlash_single] at h
      exact Or.inr ⟨a, List.mem_cons_self _ _, h⟩
    | cons b t2 =>
      rw [joinSlash_cons_cons] at h
      rcases List.mem_append.1 h with h1 | h1
      · exact Or.inr ⟨a, List.mem_cons_self _ _, h1⟩
      · rcases List.mem_cons.1 h1 with h2 | h2
        · exact Or.inl h2
        · rcases ih h2 with h3 | ⟨s, hs, hcs⟩
          · exact Or.inl h3
          · exact Or.inr ⟨s, List.mem_cons_of_mem _ hs, hcs⟩

theorem splitOnChar_ne_nil (sep : Char) :
    ∀ (s : Str), splitOnChar sep s ≠ [] := by
  intro s
  cases s with
  | nil => simp [splitOnChar]
  | cons c rest =>
    unfold splitOnChar
    by_cases hc : c = sep
    · simp [hc]
    · simp only [if_neg hc]
      cases splitOnChar sep rest <;> simp

theorem splitOnChar_noslash {sep : Char} :
    ∀ {s : Str}, sep ∉ s → splitOnChar sep s = [s] := by
  intro s
  induction s with
  | nil => intro _; rfl
  | cons c rest ih =>
    intro hni
    have hc : c ≠ sep := fun h => hni (h ▸ List.mem_cons_self c rest)
    unfold splitOnChar
    rw [if_neg hc, ih (fun h => hni (List.mem_cons_of_mem c h))]

theorem splitOnChar_cons_ne {sep c : Char} (rest : Str) (hc : c ≠ sep) :
    splitOnChar sep (c :: rest) =
      (match splitOnChar sep rest with
      | [] => [[c]]
      | h :: t => (c :: h) :: t) := by
  simp only [splitOnChar, if_neg hc]

theorem splitOnChar_sep_append {sep : Char} :
    ∀ {a : Str} (r : Str), sep ∉ a →
      splitOnChar sep (a ++ sep :: r) = a :: splitOnChar sep r := by
  intro a
  induction a with
  | nil =>
    intro r _
    simp [splitOnChar]
  | cons c a2 ih =>
    intro r hni
    have hc : c ≠ sep := fun h => hni (h ▸ List.mem_cons_self c a2)
    rw [List.cons_append, splitOnChar_cons_ne _ hc,
      ih r (fun h => hni (List.mem_cons_of_mem c h))]

theorem splitOnChar_joinSlash :
    ∀ {L : List Str}, L ≠ [] → (∀ s ∈ L, '/' ∉ s) →
      splitOnChar '/' (joinSlash L) = L := by
  intro L
  induction L with
  | nil => intro h _; exact absurd rfl h
  | cons a t ih =>
    intro _ hsl
    cases t with
    | nil =>
      rw [joinSlash_single]
      exact splitOnChar_noslash (hsl a (List.mem_cons_self _ _))
    | cons b t2 =>
      rw [joinSlash_cons_cons,
        splitOnChar_sep_append _ (hsl a (List.mem_cons_self _ _)),
        show joinSlash (b :: t2) = joinSlash (b :: t2) from rfl,
        ih (by simp) (fun s hs => hsl s (List.mem_cons_of_mem a hs))]

theorem cleanLoop_good (rooted : Bool) :
    ∀ (segs acc : List Str),
      (∀ s ∈ segs, s = [] ∨ (s ≠ strD "." ∧ s ≠ strD "..")) →
      cleanLoop rooted acc segs =
        acc ++ segs.filter (fun s => decide (s ≠ [])) := by
  intro segs
  induction segs with
  | nil => intro acc _; simp [cleanLoop]
  | cons seg rest ih =>
    intro acc hgood
    by_cases hseg : seg = []
    · subst hseg
      unfold cleanLoop
      rw [if_pos (Or.inl rfl),
        ih acc (fun s hs => hgood s (List.mem_cons_of_mem _ hs))]
      simp
    · rcases hgood seg (List.mem_cons_self _ _) with h1 | ⟨h2, h3⟩
      · exact absurd h1 hseg
      · unfold cleanLoop
        rw [if_neg (by rintro (h | h); exacts [hseg h, h2 h]), if_neg h3,
          ih (acc ++ [seg]) (fun s hs => hgood s (List.mem_cons_of_mem _ hs))]
        rw [List.filter_cons, if_pos (by simpa using hseg)]
        simp

theorem cleanPath_cons (c : Char) (s : Str) :
    cleanPath (c :: s) =
      (if cleanLoop (decide (c = '/')) [] (splitOnChar '/' (c :: s)) = [] then
        (if c = '/' then strD "/" else strD ".")
      else (if c = '/' then strD "/" else []) ++
        joinSlash (cleanLoop (decide (c = '/')) [] (splitOnChar '/' (c :: s)))) := rfl

theorem filter_ne_nil_of_good {L : List Str}
    (h : ∀ s ∈ L, s ≠ []) : L.filter (fun s => decide (s ≠ [])) = L := by
  induction L with
  | nil => rfl
  | cons a t ih =>
    rw [List.filter_cons, if_pos (by simpa using h a (List.mem_cons_self _ _)),
      ih (fun s hs => h s (List.mem_cons_of_mem _ hs))]

theorem cleanPath_joinSlash {L : List Str} {c : Char} {s1 : Str}
    (hL : L.head? = some (c :: s1)) (hc : c ≠ '/')
    (hgood : ∀ s ∈ L, s = [] ∨ (s ≠ strD "." ∧ s ≠ strD ".."))
    (hslash : ∀ s ∈ L, '/' ∉ s)
    (hfil : L.filter (fun s => decide (s ≠ [])) ≠ []) :
    cleanPath (joinSlash L) =
      joinSlash (L.filter (fun s => decide (s ≠ []))) := by
  cases L with
  | nil => simp at hL
  | cons a t =>
    have ha : a = c :: s1 := by simpa using hL
    subst ha
    have hform : ∃ r, joinSlash ((c :: s1) :: t) = c :: r := by
      cases t with
      | nil => exact ⟨s1, by rw [joinSlash_single]⟩
      | cons b t2 => exact ⟨s1 ++ '/' :: joinSlash (b :: t2),
          by rw [joinSlash_cons_cons]; rfl⟩
    obtain ⟨r, hr⟩ := hform
    rw [hr, cleanPath_cons, ← hr,
      splitOnChar_joinSlash (by simp) hslash,
      cleanLoop_good _ _ [] hgood]
    rw [List.nil_append]
    rw [if_neg hfil, if_neg hc, List.nil_append]

theorem cleanPath_joinSlash_rooted {L : List Str} {c : Char} {s1 : Str}
    (hL : L.head? = some (c :: s1)) (hc : c ≠ '/')
    (hgood : ∀ s ∈ L, s = [] ∨ (s ≠ strD "." ∧ s ≠ strD ".."))
    (hslash : ∀ s ∈ L, '/' ∉ s)
    (hfil : L.filter (fun s => decide (s ≠ [])) ≠ []) :
    cleanPath (joinSlash ([] :: L)) =
      '/' :: joinSlash (L.filter (fun s => decide (s ≠ []))) := by
  cases L with
  | nil => simp at hL
  | cons a t =>
    have hj : joinSlash ([] :: a :: t) = '/' :: joinSlash (a :: t) := by
      rw [joinSlash_cons_cons]
      rfl
    rw [hj, cleanPath_cons, ← hj]
    have hsl2 : ∀ s ∈ ([] :: a :: t : List Str), '/' ∉ s := by
      intro s hs
      rcases List.mem_cons.1 hs with h1 | h1
      · subst h1; simp
      · exact hslash s h1
    rw [splitOnChar_joinSlash (by simp) hsl2]
    have hgood2 : ∀ s ∈ ([] :: a :: t : List Str),
        s = [] ∨ (s ≠ strD "." ∧ s ≠ strD "..") := by
      intro s hs
      rcases List.mem_cons.1 hs with h1 | h1
      · exact Or.inl h1
      · exact hgood s h1
    rw [cleanLoop_good _ _ [] hgood2, List.nil_append]
    have hfe : List.filter (fun s => decide (s ≠ []))
        ([] :: a :: t : List Str) =
        List.filter (fun s => decide (s ≠ [])) (a :: t) := by
      rw [List.filter_cons, if_neg (by simp)]
    rw [hfe, if_neg hfil, if_pos rfl]
    rfl

theorem dropWhile_append_of_all {p : Char → Bool} :
    ∀ {l1 : Str} (l2 : Str), (∀ x ∈ l1, p x = true) →
      List.dropWhile p (l1 ++ l2) = List.dropWhile p l2 := by
  intro l1
  induction l1 with
  | nil => intro l2 _; rfl
  | cons c t ih =>
    intro l2 hall
    rw [List.cons_append, List.dropWhile_cons,
      if_pos (hall c (List.mem_cons_self _ _)),
      ih l2 (fun x hx => hall x (List.mem_cons_of_mem _ hx))]

theorem takeWhile_append_stop {p : Char → Bool} {c : Char} :
    ∀ {l1 : Str} (l2 : Str), (∀ x ∈ l1, p x = true) → p c = false →
      List.takeWhile p (l1 ++ c :: l2) = l1 := by
  intro l1
  induction l1 with
  | nil =>
    intro l2 _ hc
    rw [List.nil_append, List.takeWhile_cons, if_neg (by simp [hc])]
  | cons a t ih =>
    intro l2 hall hc
    rw [List.cons_append, List.takeWhile_cons,
      if_pos (hall a (List.mem_cons_self _ _)),
      ih l2 (fun x hx => hall x (List.mem_cons_of_mem _ hx)) hc]

theorem beforeLastSlash_concat (d fname : Str) (hf : '/' ∉ fname) :
    beforeLastSlash (d ++ '/' :: fname) = d ++ ['/'] := by
  unfold beforeLastSlash
  rw [List.reverse_append, List.reverse_cons]
  rw [List.append_assoc, List.singleton_append]
  rw [dropWhile_append_of_all _ (by
    intro x hx
    simp only [decide_eq_true_iff]
    intro hxe
    exact hf (by rw [← hxe]; exact List.mem_reverse.1 hx))]
  rw [List.dropWhile_cons, if_neg (by simp)]
  simp

theorem dropTrailingSlashes_of {s : Str} {h : Char} {t : Str}
    (hrev : s.reverse = h :: t) (hh : h ≠ '/') :
    dropTrailingSlashes s = s := by
  unfold dropTrailingSlashes
  rw [hrev, List.dropWhile_cons, if_neg (by simp [hh]), ← hrev,
    List.reverse_reverse]

theorem basePath_concat (d fname : Str) (hf : '/' ∉ fname)
    (hne : fname ≠ []) :
    basePath (d ++ '/' :: fname) = fname := by
  obtain ⟨h, t, hrev⟩ : ∃ h t, fname.reverse = h :: t := by
    cases hx : fname.reverse with
    | nil => exact absurd (by simpa using congrArg List.reverse hx) hne
    | cons h t => exact ⟨h, t, rfl⟩
  have hh : h ≠ '/' := by
    intro he
    exact hf (List.mem_reverse.1 (by rw [hrev, he]; exact List.mem_cons_self _ _))
  unfold basePath
  rw [if_neg (by simp)]
  have hdrop : dropTrailingSlashes (d ++ '/' :: fname) = d ++ '/' :: fname := by
    refine @dropTrailingSlashes_of _ _ (t ++ '/' :: d.reverse) ?_ hh
    rw [List.reverse_append, List.reverse_cons, hrev]
    simp
  rw [hdrop, if_neg (by simp)]
  rw [show (d ++ '/' :: fname).reverse = fname.reverse ++ '/' :: d.reverse from by
    simp]
  rw [takeWhile_append_stop _ (by
    intro x hx
    simp only [decide_eq_true_iff]
    intro hxe
    exact hf (by rw [← hxe]; exact List.mem_reverse.1 hx)) (by simp)]
  simp

theorem basePath_noslash {fname : Str} (hf : '/' ∉ fname)
    (hne : fname ≠ []) : basePath fname = fname := by
  obtain ⟨h, t, hrev⟩ : ∃ h t, fname.reverse = h :: t := by
    cases hx : fname.reverse with
    | nil => exact absurd (by simpa using congrArg List.reverse hx) hne
    | cons h t => exact ⟨h, t, rfl⟩
  have hh : h ≠ '/' := by
    intro he
    exact hf (List.mem_reverse.1 (by rw [hrev, he]; exact List.mem_cons_self _ _))
  unfold basePath
  rw [if_neg hne, dropTrailingSlashes_of hrev hh, if_neg hne]
  rw [List.takeWhile_eq_self_iff.2 (by
    intro x hx
    simp only [decide_eq_true_iff]
    intro hxe
    exact hf (by rw [← hxe]; exact List.mem_reverse.1 hx))]
  rw [List.reverse_reverse]

theorem dirPath_noslash {fname : Str} (hf : '/' ∉ fname) :
    dirPath fname = strD "." := by
  unfold dirPath beforeLastSlash
  rw [List.dropWhile_eq_nil_iff.2 (by
    intro x hx
    simp only [decide_eq_true_iff]
    intro hxe
    exact hf (by rw [← hxe]; exact List.mem_reverse.1 hx))]
  rfl

theorem replaceBackslash_id : ∀ {s : Str}, '\\' ∉ s → replaceBackslash s = s := by
  intro s
  induction s with
  | nil => intro _; rfl
  | cons c t ih =>
    intro h
    show (if c = '\\' then '/' else c) :: replaceBackslash t = c :: t
    rw [if_neg (fun (he : c = '\\') => h (he ▸ List.mem_cons_self c t)),
      ih (fun hx => h (List.mem_cons_of_mem c hx))]

theorem mem_of_mem_trimSuffix {x : Char} {s suf : Str}
    (h : x ∈ trimSuffix s suf) : x ∈ s := by
  unfold trimSuffix at h
  split at h
  · exact List.mem_of_mem_take h
  · exact h

theorem swapSeg_good {fname : Str} (h : goodSeg fname = true) :
    goodSeg (trimSuffix (trimSuffix fname htmlExt) mdExt ++ mdExt) = true := by
  obtain ⟨hne, _, _, hsl, hbs, hpr⟩ := goodSeg_spec h
  apply decide_eq_true
  refine ⟨by simp [mdExt, strD], ?_, ?_, ?_, ?_, ?_⟩
  · intro hx
    have := congrArg List.length hx
    simp [mdExt, strD] at this
  · intro hx
    have := congrArg List.length hx
    simp [mdExt, strD] at this
  · intro hx
    rcases List.mem_append.1 hx with h1 | h1
    · exact hsl (mem_of_mem_trimSuffix (mem_of_mem_trimSuffix h1))
    · exact absurd h1 (by decide)
  · intro hx
    rcases List.mem_append.1 hx with h1 | h1
    · exact hbs (mem_of_mem_trimSuffix (mem_of_mem_trimSuffix h1))
    · exact absurd h1 (by decide)
  · intro hx
    rcases List.mem_append.1 hx with h1 | h1
    · exact hpr (mem_of_mem_trimSuffix (mem_of_mem_trimSuffix h1))
    · exact absurd h1 (by decide)

theorem joinSlash_ne_nil {segs : List Str} (hsegs : segs ≠ [])
    (hgood : ∀ s ∈ segs, s ≠ []) : joinSlash segs ≠ [] := by
  cases segs with
  | nil => exact absurd rfl hsegs
  | cons a t =>
    cases t with
    | nil => rw [joinSlash_single]; exact hgood a (List.mem_cons_self _ _)
    | cons b t2 =>
      rw [joinSlash_cons_cons]
      intro hx
      have := congrArg List.length hx
      simp at this


theorem joinSlash_ne_dot {segs : List Str} (hsegs : segs ≠ [])
    (hgood : ∀ s ∈ segs, goodSeg s = true) : joinSlash segs ≠ strD "." := by
  cases segs with
  | nil => exact absurd rfl hsegs
  | cons a t =>
    cases t with
    | nil =>
      rw [joinSlash_single]
      exact (goodSeg_spec (hgood a (List.mem_cons_self _ _))).2.1
    | cons b t2 =>
      rw [joinSlash_cons_cons]
      intro hx
      have hlen := congrArg List.length hx
      have hane := (goodSeg_spec (hgood a (List.mem_cons_self _ _))).1
      have hal : 1 ≤ a.length := by
        cases ha : a with
        | nil => exact absurd ha hane
        | cons c cs => simp
      simp [strD] at hlen
      omega

theorem no_backslash_joinSlash {segs : List Str}
    (hgood : ∀ s ∈ segs, '\\' ∉ s) : '\\' ∉ joinSlash segs := by
  intro hx
  rcases mem_joinSlash hx with h1 | ⟨s, hs, hcs⟩
  · exact absurd h1 (by decide)
  · exact hgood s hs hcs

theorem hasPrefixB_slash_cons (X : Str) :
    hasPrefixB ('/' :: X) (strD "/") = true := by
  simp [hasPrefixB, strD, List.isPrefixOf]

theorem splitOnChar_cons_eq (sep : Char) (rest : Str) :
    splitOnChar sep (sep :: rest) = [] :: splitOnChar sep rest := by
  simp [splitOnChar]

theorem convertLink_rel_nodir (lab anchor fname : Str)
    (hgf : goodSeg fname = true)
    (hhttp : hasPrefixB fname (strD "http") = false)
    (hroot0 : hasPrefixB fname (strD "/") = false) :
    convertLink lab fname anchor =
      strD "[" ++ lab ++ strD "](" ++ swapExtMd fname ++ anchor ++ strD ")" := by
  obtain ⟨hne, _, _, hsl, hbs, _⟩ := goodSeg_spec hgf
  unfold convertLink
  rw [if_pos (And.intro (by simp [hhttp]) (by simp [hroot0]))]
  show strD "[" ++ lab ++ strD "](" ++
      (if dirPath (replaceBackslash fname) = strD "." ∨
          dirPath (replaceBackslash fname) = [] then
        trimSuffix (trimSuffix (basePath (replaceBackslash fname)) htmlExt)
          mdExt ++ mdExt
      else replaceBackslash
        (joinPath (convertDirectoryToLowercase (dirPath (replaceBackslash fname)))
          (trimSuffix (trimSuffix (basePath (replaceBackslash fname)) htmlExt)
            mdExt ++ mdExt))) ++ anchor ++ strD ")" = _
  rw [replaceBackslash_id hbs, dirPath_noslash hsl, if_pos (Or.inl rfl),
    basePath_noslash hsl hne]
  rfl

theorem convertLink_rel_dirs (lab anchor : Str) (segs : List Str) (fname : Str)
    (hsegs : segs ≠ [])
    (hgood : ∀ seg ∈ segs, goodSeg seg = true ∧ goodSeg (toLowerStr seg) = true)
    (hgf : goodSeg fname = true)
    (hhttp : hasPrefixB (joinSlash segs ++ '/' :: fname) (strD "http") = false)
    (hroot0 : hasPrefixB (joinSlash segs ++ '/' :: fname) (strD "/") = false) :
    convertLink lab (joinSlash segs ++ '/' :: fname) anchor =
      strD "[" ++ lab ++ strD "](" ++ joinSlash (segs.map toLowerStr) ++
        '/' :: swapExtMd fname ++ anchor ++ strD ")" := by
  obtain ⟨hfne, _, _, hfsl, hfbs, _⟩ := goodSeg_spec hgf
  have hsegne : ∀ s ∈ segs, s ≠ [] := fun s hs =>
    (goodSeg_spec (hgood s hs).1).1
  have hsegsl : ∀ s ∈ segs, '/' ∉ s := fun s hs =>
    (goodSeg_spec (hgood s hs).1).2.2.2.1
  have hsegbs : ∀ s ∈ segs, '\\' ∉ s := fun s hs =>
    (goodSeg_spec (hgood s hs).1).2.2.2.2.1
  have hlne : ∀ s ∈ segs.map toLowerStr, s ≠ [] := by
    intro s hs
    obtain ⟨x, hx, hxe⟩ := List.mem_map.1 hs
    exact hxe ▸ (goodSeg_spec (hgood x hx).2).1
  have hlsl : ∀ s ∈ segs.map toLowerStr, '/' ∉ s := by
    intro s hs
    obtain ⟨x, hx, hxe⟩ := List.mem_map.1 hs
    exact hxe ▸ (goodSeg_spec (hgood x hx).2).2.2.2.1
  have hlbs : ∀ s ∈ segs.map toLowerStr, '\\' ∉ s := by
    intro s hs
    obtain ⟨x, hx, hxe⟩ := List.mem_map.1 hs
    exact hxe ▸ (goodSeg_spec (hgood x hx).2).2.2.2.2.1
  have hbstgt : '\\' ∉ joinSlash segs ++ '/' :: fname := by
    intro hx
    rcases List.mem_append.1 hx with h1 | h1
    · exact no_backslash_joinSlash hsegbs h1
    · rcases List.mem_cons.1 h1 with h2 | h2
      · exact absurd h2 (by decide)
      · exact hfbs h2
  obtain ⟨seg1, segs2, hseq⟩ : ∃ a t, segs = a :: t := by
    cases segs with
    | nil => exact absurd rfl hsegs
    | cons a t => exact ⟨a, t, rfl⟩
  obtain ⟨c1, s1, hseg1⟩ : ∃ c s, seg1 = c :: s := by
    cases hx : seg1 with
    | nil => exact absurd hx (hsegne seg1 (hseq ▸ List.mem_cons_self _ _))
    | cons c s => exact ⟨c, s, rfl⟩
  have hc1 : c1 ≠ '/' := by
    intro he
    exact hsegsl seg1 (hseq ▸ List.mem_cons_self _ _)
      (hseg1 ▸ he ▸ List.mem_cons_self _ _)
  have hdir : dirPath (joinSlash segs ++ '/' :: fname) = joinSlash segs := by
    unfold dirPath
    rw [beforeLastSlash_concat _ _ hfsl]
    rw [show joinSlash segs ++ ['/'] = joinSlash (segs ++ [[]]) from
      (joinSlash_append_single [] segs hsegs).symm]
    rw [@cleanPath_joinSlash (segs ++ [[]]) c1 s1
      (by rw [hseq, hseg1]; rfl) hc1
      (by
        intro s hs
        rcases List.mem_append.1 hs with h1 | h1
        · exact Or.inr ⟨(goodSeg_spec (hgood s h1).1).2.1,
            (goodSeg_spec (hgood s h1).1).2.2.1⟩
        · simp at h1
          exact Or.inl h1)
      (by
        intro s hs
        rcases List.mem_append.1 hs with h1 | h1
        · exact hsegsl s h1
        · simp at h1
          subst h1
          simp)
      (by
        rw [List.filter_append, filter_ne_nil_of_good hsegne]
        simp [hseq])]
    rw [List.filter_append, filter_ne_nil_of_good hsegne]
    simp
  rw [convertLink, if_pos (And.intro (by simp [hhttp]) (by simp [hroot0]))]
  show strD "[" ++ lab ++ strD "](" ++
      (if dirPath (replaceBackslash (joinSlash segs ++ '/' :: fname)) = strD "." ∨
          dirPath (replaceBackslash (joinSlash segs ++ '/' :: fname)) = [] then
        trimSuffix (trimSuffix
          (basePath (replaceBackslash (joinSlash segs ++ '/' :: fname)))
          htmlExt) mdExt ++ mdExt
      else replaceBackslash
        (joinPath
          (convertDirectoryToLowercase
            (dirPath (replaceBackslash (joinSlash segs ++ '/' :: fname))))
          (trimSuffix (trimSuffix
            (basePath (replaceBackslash (joinSlash segs ++ '/' :: fname)))
            htmlExt) mdExt ++ mdExt))) ++ anchor ++ strD ")" = _
  rw [replaceBackslash_id hbstgt, hdir,
    if_neg (by
      rintro (h | h)
      · exact joinSlash_ne_dot hsegs (fun s hs => (hgood s hs).1) h
      · exact joinSlash_ne_nil hsegs hsegne h),
    basePath_concat _ _ hfsl hfne]
  have hcdl : convertDirectoryToLowercase (joinSlash segs) =
      joinSlash (segs.map toLowerStr) := by
    unfold convertDirectoryToLowercase
    rw [replaceBackslash_id (no_backslash_joinSlash hsegbs)]
    show joinSlash ((splitOnChar '/' (joinSlash segs)).map toLowerStr) =
      joinSlash (segs.map toLowerStr)
    rw [splitOnChar_joinSlash hsegs hsegsl]
  rw [hcdl]
  have hbgood := swapSeg_good hgf
  obtain ⟨hbne, _, _, hbsl, hbbs, _⟩ := goodSeg_spec hbgood
  have hlmne : segs.map toLowerStr ≠ [] := by
    rw [hseq]
    simp
  obtain ⟨cl, sl2, hlseg1⟩ : ∃ c s, toLowerStr seg1 = c :: s := by
    have h1 : toLowerStr seg1 ≠ [] :=
      hlne (toLowerStr seg1)
        (List.mem_map_of_mem toLowerStr (hseq ▸ List.mem_cons_self _ _))
    cases hx : toLowerStr seg1 with
    | nil => exact absurd hx h1
    | cons c s => exact ⟨c, s, rfl⟩
  have hcl : cl ≠ '/' := by
    intro he
    exact hlsl (toLowerStr seg1)
      (List.mem_map_of_mem toLowerStr (hseq ▸ List.mem_cons_self _ _))
      (hlseg1 ▸ he ▸ List.mem_cons_self _ _)
  have hjp : joinPath (joinSlash (segs.map toLowerStr))
      (trimSuffix (trimSuffix fname htmlExt) mdExt ++ mdExt) =
      joinSlash (segs.map toLowerStr) ++
        '/' :: (trimSuffix (trimSuffix fname htmlExt) mdExt ++ mdExt) := by
    unfold joinPath
    rw [if_neg (joinSlash_ne_nil hlmne hlne), if_neg hbne]
    rw [show joinSlash (segs.map toLowerStr) ++
        '/' :: (trimSuffix (trimSuffix fname htmlExt) mdExt ++ mdExt) =
        joinSlash (segs.map toLowerStr ++
          [trimSuffix (trimSuffix fname htmlExt) mdExt ++ mdExt]) from
      (joinSlash_append_single _ _ hlmne).symm]
    rw [@cleanPath_joinSlash (segs.map toLowerStr ++
        [trimSuffix (trimSuffix fname htmlExt) mdExt ++ mdExt]) cl sl2
      (by rw [hseq]; simp [hlseg1]) hcl
      (by
        intro s hs
        rcases List.mem_append.1 hs with h1 | h1
        · obtain ⟨x, hx, hxe⟩ := List.mem_map.1 h1
          exact Or.inr ⟨hxe ▸ (goodSeg_spec (hgood x hx).2).2.1,
            hxe ▸ (goodSeg_spec (hgood x hx).2).2.2.1⟩
        · simp at h1
          subst h1
          exact Or.inr ⟨(goodSeg_spec hbgood).2.1, (goodSeg_spec hbgood).2.2.1⟩)
      (by
        intro s hs
        rcases List.mem_append.1 hs with h1 | h1
        · exact hlsl s h1
        · simp at h1
          subst h1
          exact hbsl)
      (by
        rw [filter_ne_nil_of_good (by
          intro s hs
          rcases List.mem_append.1 hs with h1 | h1
          · exact hlne s h1
          · simp at h1
            subst h1
            exact hbne)]
        simp [hseq])]
    rw [filter_ne_nil_of_good (by
      intro s hs
      rcases List.mem_append.1 hs with h1 | h1
      · exact hlne s h1
      · simp at h1
        subst h1
        exact hbne)]
  rw [hjp]
  rw [replaceBackslash_id (by
    intro hx
    rcases List.mem_append.1 hx with h1 | h1
    · exact no_backslash_joinSlash hlbs h1
    · rcases List.mem_cons.1 h1 with h2 | h2
      · exact absurd h2 (by decide)
      · exact hbbs h2)]
  simp [swapExtMd, List.append_assoc]

theorem convertLink_rooted (lab anchor : Str) (segs : List Str) (fname : Str)
    (hsegs : segs ≠ [])
    (hgood : ∀ seg ∈ segs, goodSeg seg = true ∧ goodSeg (toLowerStr seg) = true)
    (hgf : goodSeg fname = true) :
    convertLink lab ('/' :: (joinSlash segs ++ '/' :: fname)) anchor =
      strD "[" ++ lab ++ strD "](" ++
        ('/' :: joinSlash (segs.map toLowerStr)) ++
        '/' :: swapExtMd fname ++ anchor ++ strD ")" := by
  obtain ⟨hfne, _, _, hfsl, hfbs, _⟩ := goodSeg_spec hgf
  have hsegne : ∀ s ∈ segs, s ≠ [] := fun s hs =>
    (goodSeg_spec (hgood s hs).1).1
  have hsegsl : ∀ s ∈ segs, '/' ∉ s := fun s hs =>
    (goodSeg_spec (hgood s hs).1).2.2.2.1
  have hsegbs : ∀ s ∈ segs, '\\' ∉ s := fun s hs =>
    (goodSeg_spec (hgood s hs).1).2.2.2.2.1
  have hlne : ∀ s ∈ segs.map toLowerStr, s ≠ [] := by
    intro s hs
    obtain ⟨x, hx, hxe⟩ := List.mem_map.1 hs
    exact hxe ▸ (goodSeg_spec (hgood x hx).2).1
  have hlsl : ∀ s ∈ segs.map toLowerStr, '/' ∉ s := by
    intro s hs
    obtain ⟨x, hx, hxe⟩ := List.mem_map.1 hs
    exact hxe ▸ (goodSeg_spec (hgood x hx).2).2.2.2.1
  have hlbs : ∀ s ∈ segs.map toLowerStr, '\\' ∉ s := by
    intro s hs
    obtain ⟨x, hx, hxe⟩ := List.mem_map.1 hs
    exact hxe ▸ (goodSeg_spec (hgood x hx).2).2.2.2.2.1
  obtain ⟨seg1, segs2, hseq⟩ : ∃ a t, segs = a :: t := by
    cases segs with
    | nil => exact absurd rfl hsegs
    | cons a t => exact ⟨a, t, rfl⟩
  obtain ⟨c1, s1, hseg1⟩ : ∃ c s, seg1 = c :: s := by
    cases hx : seg1 with
    | nil => exact absurd hx (hsegne seg1 (hseq ▸ List.mem_cons_self _ _))
    | cons c s => exact ⟨c, s, rfl⟩
  have hc1 : c1 ≠ '/' := by
    intro he
    exact hsegsl seg1 (hseq ▸ List.mem_cons_self _ _)
      (hseg1 ▸ he ▸ List.mem_cons_self _ _)
  unfold convertLink
  rw [if_neg (by
    rintro ⟨_, h2⟩
    exact h2 (hasPrefixB_slash_cons _))]
  show strD "[" ++ lab ++ strD "](" ++
      (if dirPath ('/' :: (joinSlash segs ++ '/' :: fname)) = strD "." ∨
          dirPath ('/' :: (joinSlash segs ++ '/' :: fname)) = [] then
        trimSuffix (trimSuffix
          (basePath ('/' :: (joinSlash segs ++ '/' :: fname))) htmlExt)
          mdExt ++ mdExt
      else replaceBackslash
        (joinPath
          (convertDirectoryToLowercase
            (dirPath ('/' :: (joinSlash segs ++ '/' :: fname))))
          (trimSuffix (trimSuffix
            (basePath ('/' :: (joinSlash segs ++ '/' :: fname))) htmlExt)
            mdExt ++ mdExt))) ++ anchor ++ strD ")" = _
  have hsplit : '/' :: (joinSlash segs ++ '/' :: fname) =
      ('/' :: joinSlash segs) ++ '/' :: fname := by
    simp
  have hbase : basePath ('/' :: (joinSlash segs ++ '/' :: fname)) = fname := by
    rw [hsplit]
    exact basePath_concat _ _ hfsl hfne
  have hdir : dirPath ('/' :: (joinSlash segs ++ '/' :: fname)) =
      '/' :: joinSlash segs := by
    unfold dirPath
    rw [hsplit, beforeLastSlash_concat _ _ hfsl]
    have hform : ('/' :: joinSlash segs) ++ ['/'] =
        joinSlash ([] :: (segs ++ [[]])) := by
      rw [joinSlash_cons [] (segs ++ [[]]) (by simp),
        joinSlash_append_single [] segs hsegs]
      simp
    rw [hform]
    rw [@cleanPath_joinSlash_rooted (segs ++ [[]]) c1 s1
      (by rw [hseq, hseg1]; rfl) hc1
      (by
        intro s hs
        rcases List.mem_append.1 hs with h1 | h1
        · exact Or.inr ⟨(goodSeg_spec (hgood s h1).1).2.1,
            (goodSeg_spec (hgood s h1).1).2.2.1⟩
        · simp at h1
          exact Or.inl h1)
      (by
        intro s hs
        rcases List.mem_append.1 hs with h1 | h1
        · exact hsegsl s h1
        · simp at h1
          subst h1
          simp)
      (by
        rw [List.filter_append, filter_ne_nil_of_good hsegne]
        simp [hseq])]
    rw [List.filter_append, filter_ne_nil_of_good hsegne]
    simp
  rw [hbase, hdir,
    if_neg (by
      rintro (h | h)
      · simp [strD] at h
      · simp at h)]
  have hcdl : convertDirectoryToLowercase ('/' :: joinSlash segs) =
      '/' :: joinSlash (segs.map toLowerStr) := by
    unfold convertDirectoryToLowercase
    rw [replaceBackslash_id (by
      intro hx
      rcases List.mem_cons.1 hx with h1 | h1
      · exact absurd h1 (by decide)
      · exact no_backslash_joinSlash hsegbs h1)]
    show joinSlash ((splitOnChar '/' ('/' :: joinSlash segs)).map toLowerStr) =
      '/' :: joinSlash (segs.map toLowerStr)
    rw [splitOnChar_cons_eq, splitOnChar_joinSlash hsegs hsegsl,
      List.map_cons]
    show joinSlash ([] :: segs.map toLowerStr) =
      '/' :: joinSlash (segs.map toLowerStr)
    rw [joinSlash_cons [] (segs.map toLowerStr) (by rw [hseq]; simp)]
    rfl
  rw [hcdl]
  have hbgood := swapSeg_good hgf
  obtain ⟨hbne, _, _, hbsl, hbbs, _⟩ := goodSeg_spec hbgood
  have hlmne : segs.map toLowerStr ≠ [] := by
    rw [hseq]
    simp
  have hjp : joinPath ('/' :: joinSlash (segs.map toLowerStr))
      (trimSuffix (trimSuffix fname htmlExt) mdExt ++ mdExt) =
      '/' :: (joinSlash (segs.map toLowerStr) ++
        '/' :: (trimSuffix (trimSuffix fname htmlExt) mdExt ++ mdExt)) := by
    unfold joinPath
    rw [if_neg (by simp), if_neg hbne]
    have hform2 : ('/' :: joinSlash (segs.map toLowerStr)) ++
        '/' :: (trimSuffix (trimSuffix fname htmlExt) mdExt ++ mdExt) =
        joinSlash ([] :: (segs.map toLowerStr ++
          [trimSuffix (trimSuffix fname htmlExt) mdExt ++ mdExt])) := by
      rw [joinSlash_cons [] _ (by simp [hseq]),
        joinSlash_append_single _ _ hlmne]
      simp
    rw [hform2]
    obtain ⟨cl, sl2, hlseg1⟩ : ∃ c s, toLowerStr seg1 = c :: s := by
      have h1 : toLowerStr seg1 ≠ [] :=
        hlne (toLowerStr seg1)
          (List.mem_map_of_mem toLowerStr (hseq ▸ List.mem_cons_self _ _))
      cases hx : toLowerStr seg1 with
      | nil => exact absurd hx h1
      | cons c s => exact ⟨c, s, rfl⟩
    have hcl : cl ≠ '/' := by
      intro he
      exact hlsl (toLowerStr seg1)
        (List.mem_map_of_mem toLowerStr (hseq ▸ List.mem_cons_self _ _))
        (hlseg1 ▸ he ▸ List.mem_cons_self _ _)
    rw [@cleanPath_joinSlash_rooted (segs.map toLowerStr ++
        [trimSuffix (trimSuffix fname htmlExt) mdExt ++ mdExt]) cl sl2
      (by rw [hseq]; simp [hlseg1]) hcl
      (by
        intro s hs
        rcases List.mem_append.1 hs with h1 | h1
        · obtain ⟨x, hx, hxe⟩ := List.mem_map.1 h1
          exact Or.inr ⟨hxe ▸ (goodSeg_spec (hgood x hx).2).2.1,
            hxe ▸ (goodSeg_spec (hgood x hx).2).2.2.1⟩
        · simp at h1
          subst h1
          exact Or.inr ⟨(goodSeg_spec hbgood).2.1, (goodSeg_spec hbgood).2.2.1⟩)
      (by
        intro s hs
        rcases List.mem_append.1 hs with h1 | h1
        · exact hlsl s h1
        · simp at h1
          subst h1
          exact hbsl)
      (by
        rw [filter_ne_nil_of_good (by
          intro s hs
          rcases List.mem_append.1 hs with h1 | h1
          · exact hlne s h1
          · simp at h1
            subst h1
            exact hbne)]
        simp [hseq])]
    rw [filter_ne_nil_of_good (by
      intro s hs
      rcases List.mem_append.1 hs with h1 | h1
      · exact hlne s h1
      · simp at h1
        subst h1
        exact hbne)]
    rw [joinSlash_append_single _ _ hlmne]
  rw [hjp]
  rw [replaceBackslash_id (by
    intro hx
    rcases List.mem_cons.1 hx with h0 | h0
    · exact absurd h0 (by decide)
    · rcases List.mem_append.1 h0 with h1 | h1
      · exact no_backslash_joinSlash hlbs h1
      · rcases List.mem_cons.1 h1 with h2 | h2
        · exact absurd h2 (by decide)
        · exact hbbs h2)]
  simp [swapExtMd, List.append_assoc]

theorem hasPrefixB_slash_false {s : Str} (hne : s ≠ []) (hsl : '/' ∉ s) :
    hasPrefixB s (strD "/") = false := by
  cases s with
  | nil => exact absurd rfl hne
  | cons c t =>
    have hc : c ≠ '/' := fun h => hsl (h ▸ List.mem_cons_self c t)
    simp [hasPrefixB, strD, List.isPrefixOf]
    intro h
    exact absurd h.symm hc

theorem hasSuffixB_concat_html (d fname : Str)
    (h : hasSuffixB fname htmlExt = true) :
    hasSuffixB (d ++ '/' :: fname) htmlExt = true := by
  rw [hasSuffixB_iff] at h ⊢
  exact h.trans ⟨d ++ ['/'], by simp⟩

theorem no_rparen_concat {segs : List Str} {fname : Str}
    (hseg : ∀ s ∈ segs, ')' ∉ s) (hf : ')' ∉ fname) :
    ')' ∉ joinSlash segs ++ '/' :: fname := by
  intro hx
  rcases List.mem_append.1 hx with h1 | h1
  · rcases mem_joinSlash h1 with h2 | ⟨s, hs, hcs⟩
    · exact absurd h2 (by decide)
    · exact hseg s hs hcs
  · rcases List.mem_cons.1 h1 with h2 | h2
    · exact absurd h2 (by decide)
    · exact hf h2

/-- C1 (amended): the link regex of ConvertHtmlLinksToMd matches the
source extension case-sensitively.  A relative link target that ends in
lowercase ".html" is rewritten — the extension is swapped to ".md" with
the filename's own case preserved, every directory segment of the
target is lowercased, and the fragment after the target is kept
verbatim (first conjunct: no directory prefix; second: with directory
segments).  A target containing no lowercase ".html" — such as
other.HTML in any mixed case — is not matched and the whole link is
left unchanged (third conjunct). -/
theorem claim_C1_amended :
    (∀ (pre lab anchor post fname : Str), '[' ∉ pre → ']' ∉ lab →
      goodSeg fname = true → hasSuffixB fname htmlExt = true →
      ')' ∉ anchor →
      (∀ j, j ≤ (fname ++ anchor).length → fname.length < j →
        hasSuffixB ((fname ++ anchor).take j) htmlExt = false) →
      hasPrefixB fname (strD "http") = false →
      convertHtmlLinksToMd
        (pre ++ '[' :: (lab ++ ']' :: '(' :: ((fname ++ anchor) ++ ')' :: post))) =
      pre ++ strD "[" ++ lab ++ strD "](" ++ swapExtMd fname ++ anchor ++
        strD ")" ++ convertHtmlLinksToMd post) ∧
    (∀ (pre lab anchor post : Str) (segs : List Str) (fname : Str),
      '[' ∉ pre → ']' ∉ lab → segs ≠ [] →
      (∀ seg ∈ segs, goodSeg seg = true ∧ goodSeg (toLowerStr seg) = true) →
      goodSeg fname = true → hasSuffixB fname htmlExt = true →
      ')' ∉ anchor →
      (∀ j, j ≤ ((joinSlash segs ++ '/' :: fname) ++ anchor).length →
        (joinSlash segs ++ '/' :: fname).length < j →
        hasSuffixB (((joinSlash segs ++ '/' :: fname) ++ anchor).take j)
          htmlExt = false) →
      hasPrefixB (joinSlash segs ++ '/' :: fname) (strD "http") = false →
      hasPrefixB (joinSlash segs ++ '/' :: fname) (strD "/") = false →
      convertHtmlLinksToMd
        (pre ++ '[' :: (lab ++ ']' :: '(' ::
          (((joinSlash segs ++ '/' :: fname) ++ anchor) ++ ')' :: post))) =
      pre ++ strD "[" ++ lab ++ strD "](" ++ joinSlash (segs.map toLowerStr) ++
        '/' :: swapExtMd fname ++ anchor ++ strD ")" ++
        convertHtmlLinksToMd post) ∧
    (∀ (pre lab content post : Str), '[' ∉ pre → ']' ∉ lab → '[' ∉ lab →
      ')' ∉ content → '[' ∉ content →
      (∀ j, j ≤ content.length →
        hasSuffixB (content.take j) htmlExt = false) →
      convertHtmlLinksToMd
        (pre ++ '[' :: (lab ++ ']' :: '(' :: (content ++ ')' :: post))) =
      pre ++ '[' :: (lab ++ ']' :: '(' ::
        (content ++ ')' :: convertHtmlLinksToMd post))) := by
  refine ⟨?_, ?_, ?_⟩
  · intro pre lab anchor post fname hpre hlab hgf hhtml hanchor hmax hhttp
    obtain ⟨hfne, _, _, hfsl, _, hfpr⟩ := goodSeg_spec hgf
    unfold convertHtmlLinksToMd
    rw [scanLinks_append_nolink pre _ hpre]
    rw [scanLinks_match (tryMatch_of hlab hfpr hanchor hhtml hmax)]
    rw [convertLink_rel_nodir lab anchor fname hgf hhttp
      (hasPrefixB_slash_false hfne hfsl)]
    simp [List.append_assoc]
  · intro pre lab anchor post segs fname hpre hlab hsegs hgood hgf hhtml
      hanchor hmax hhttp hroot0
    have hsegpr : ∀ s ∈ segs, ')' ∉ s := fun s hs =>
      (goodSeg_spec (hgood s hs).1).2.2.2.2.2
    have hfpr : ')' ∉ fname := (goodSeg_spec hgf).2.2.2.2.2
    unfold convertHtmlLinksToMd
    rw [scanLinks_append_nolink pre _ hpre]
    rw [scanLinks_match (tryMatch_of hlab (no_rparen_concat hsegpr hfpr)
      hanchor (hasSuffixB_concat_html _ _ hhtml) hmax)]
    rw [convertLink_rel_dirs lab anchor segs fname hsegs hgood hgf hhttp hroot0]
    simp [List.append_assoc]
  · intro pre lab content post hpre hlab hlab2 hcpar hcbr hnone
    unfold convertHtmlLinksToMd
    rw [scanLinks_append_nolink pre _ hpre]
    rw [scanLinks_nomatch (tryMatch_none_of hlab hcpar hnone)]
    rw [show lab ++ ']' :: '(' :: (content ++ ')' :: post) =
        (lab ++ ']' :: '(' :: (content ++ [')'])) ++ post from by simp]
    rw [scanLinks_append_nolink _ _ (by
      intro hx
      rcases List.mem_append.1 hx with h1 | h1
      · exact hlab2 h1
      · rcases List.mem_cons.1 h1 with h2 | h2
        · exact absurd h2 (by decide)
        · rcases List.mem_cons.1 h2 with h3 | h3
          · exact absurd h3 (by decide)
          · rcases List.mem_append.1 h3 with h4 | h4
            · exact hcbr h4
            · rcases List.mem_cons.1 h4 with h5 | h5
              · exact absurd h5 (by decide)
              · cases h5)]
    simp [List.append_assoc]

/-- Witness for the amended C1 at concrete links: a plain
[See](b.html#x) link, a [See](Docs/Other.html#intro) link with a
directory, and the unmatched uppercase [See](other.HTML#intro). -/
theorem claim_C1_amended_witness :
    (convertHtmlLinksToMd
      (strD "a " ++ '[' :: (strD "See" ++ ']' :: '(' ::
        ((strD "b.html" ++ strD "#x") ++ ')' :: strD "!"))) =
      strD "a " ++ strD "[" ++ strD "See" ++ strD "](" ++
        swapExtMd (strD "b.html") ++ strD "#x" ++ strD ")" ++
        convertHtmlLinksToMd (strD "!")) ∧
    (convertHtmlLinksToMd
      (strD "a " ++ '[' :: (strD "See" ++ ']' :: '(' ::
        (((joinSlash [strD "Docs"] ++ '/' :: strD "Other.html") ++
          strD "#intro") ++ ')' :: strD "!"))) =
      strD "a " ++ strD "[" ++ strD "See" ++ strD "](" ++
        joinSlash ([strD "Docs"].map toLowerStr) ++
        '/' :: swapExtMd (strD "Other.html") ++ strD "#intro" ++ strD ")" ++
        convertHtmlLinksToMd (strD "!")) ∧
    (convertHtmlLinksToMd
      (strD "a " ++ '[' :: (strD "See" ++ ']' :: '(' ::
        (strD "other.HTML#intro" ++ ')' :: strD "!"))) =
      strD "a " ++ '[' :: (strD "See" ++ ']' :: '(' ::
        (strD "other.HTML#intro" ++ ')' ::
          convertHtmlLinksToMd (strD "!")))) :=
  ⟨claim_C1_amended.1 (strD "a ") (strD "See") (strD "#x") (strD "!")
      (strD "b.html") (by decide) (by decide) (by decide) (by decide)
      (by decide) (by decide) (by decide),
   claim_C1_amended.2.1 (strD "a ") (strD "See") (strD "#intro") (strD "!")
      [strD "Docs"] (strD "Other.html") (by decide) (by decide) (by decide)
      (by decide) (by decide) (by decide) (by decide) (by decide) (by decide)
      (by decide),
   claim_C1_amended.2.2 (strD "a ") (strD "See") (strD "other.HTML#intro")
      (strD "!") (by decide) (by decide) (by decide) (by decide) (by decide)
      (by decide)⟩

/-- C2 (amended): absolute and root-relative targets are NOT rewritten
by extension swap alone.  A root-relative target /dir…/name.html gets
the extension swap and additionally every directory segment lowercased
(first conjunct, symbolically).  An absolute URL is mangled further:
filepath.Dir/Join collapse the "//" after the scheme and the host and
path segments are lowercased (second conjunct, on a concrete URL). -/
theorem claim_C2_amended :
    (∀ (pre lab anchor post : Str) (segs : List Str) (fname : Str),
      '[' ∉ pre → ']' ∉ lab → segs ≠ [] →
      (∀ seg ∈ segs, goodSeg seg = true ∧ goodSeg (toLowerStr seg) = true) →
      goodSeg fname = true → hasSuffixB fname htmlExt = true →
      ')' ∉ anchor →
      (∀ j, j ≤ (('/' :: (joinSlash segs ++ '/' :: fname)) ++ anchor).length →
        ('/' :: (joinSlash segs ++ '/' :: fname)).length < j →
        hasSuffixB ((('/' :: (joinSlash segs ++ '/' :: fname)) ++ anchor).take j)
          htmlExt = false) →
      convertHtmlLinksToMd
        (pre ++ '[' :: (lab ++ ']' :: '(' ::
          ((('/' :: (joinSlash segs ++ '/' :: fname)) ++ anchor) ++
            ')' :: post))) =
      pre ++ strD "[" ++ lab ++ strD "](" ++
        ('/' :: joinSlash (segs.map toLowerStr)) ++
        '/' :: swapExtMd fname ++ anchor ++ strD ")" ++
        convertHtmlLinksToMd post) ∧
    convertHtmlLinksToMd (strD "[x](http://Ex.com/A/Page.html#f)") =
      strD "[x](http:/ex.com/a/Page.md#f)" := by
  constructor
  · intro pre lab anchor post segs fname hpre hlab hsegs hgood hgf hhtml
      hanchor hmax
    have hsegpr : ∀ s ∈ segs, ')' ∉ s := fun s hs =>
      (goodSeg_spec (hgood s hs).1).2.2.2.2.2
    have hfpr : ')' ∉ fname := (goodSeg_spec hgf).2.2.2.2.2
    have htgtpr : ')' ∉ '/' :: (joinSlash segs ++ '/' :: fname) := by
      intro hx
      rcases List.mem_cons.1 hx with h1 | h1
      · exact absurd h1 (by decide)
      · exact no_rparen_concat hsegpr hfpr h1
    have htgthtml : hasSuffixB ('/' :: (joinSlash segs ++ '/' :: fname))
        htmlExt = true := by
      rw [show '/' :: (joinSlash segs ++ '/' :: fname) =
        ('/' :: joinSlash segs) ++ '/' :: fname from by simp]
      exact hasSuffixB_concat_html _ _ hhtml
    unfold convertHtmlLinksToMd
    rw [scanLinks_append_nolink pre _ hpre]
    rw [scanLinks_match (tryMatch_of hlab htgtpr hanchor htgthtml hmax)]
    rw [convertLink_rooted lab anchor segs fname hsegs hgood hgf]
    simp [List.append_assoc]
  · decide

/-- Witness for the amended C2 at a concrete root-relative link
[x](/Dir/Page.html#f). -/
theorem claim_C2_amended_witness :
    convertHtmlLinksToMd
      (strD "" ++ '[' :: (strD "x" ++ ']' :: '(' ::
        ((('/' :: (joinSlash [strD "Dir"] ++ '/' :: strD "Page.html")) ++
          strD "#f") ++ ')' :: strD ""))) =
    strD "" ++ strD "[" ++ strD "x" ++ strD "](" ++
      ('/' :: joinSlash ([strD "Dir"].map toLowerStr)) ++
      '/' :: swapExtMd (strD "Page.html") ++ strD "#f" ++ strD ")" ++
      convertHtmlLinksToMd (strD "") :=
  claim_C2_amended.1 (strD "") (strD "x") (strD "#f") (strD "")
    [strD "Dir"] (strD "Page.html") (by decide) (by decide) (by decide)
    (by decide) (by decide) (by decide) (by decide) (by decide)

/-! ### C1 and C2: counterexamples -/

/-- Counterexample to C1: the spec claims a link target ending in the
source extension in any letter case is rewritten, naming
[See](other.HTML#intro) → [See](other.md#intro); the link pattern of
main.go 361 only matches the lowercase extension ".html", so the link
text is returned unchanged and differs from the claimed rewrite. -/
theorem claim_C1_counterexample :
    convertHtmlLinksToMd (strD "[See](other.HTML#intro)") =
      strD "[See](other.HTML#intro)" ∧
    convertHtmlLinksToMd (strD "[See](other.HTML#intro)") ≠
      strD "[See](other.md#intro)" := by
  constructor <;> decide

/-- Counterexample to C2: the spec claims the letter case of directory
segments of a root-relative target is left unchanged; the else branch
of ConvertHtmlLinksToMd (main.go 399-414) lowercases the directory via
ConvertDirectoryToLowercase, so /Dir/Page.html rewrites to
/dir/Page.md rather than the claimed /Dir/Page.md. -/
theorem claim_C2_counterexample :
    convertHtmlLinksToMd (strD "[x](/Dir/Page.html)") =
      strD "[x](/dir/Page.md)" ∧
    convertHtmlLinksToMd (strD "[x](/Dir/Page.html)") ≠
      strD "[x](/Dir/Page.md)" := by
  constructor <;> decide

/-! ### C4 and C5: merge direction and two-phase rename rollback -/

theorem lookupEntry_nil (n : Str) : lookupEntry [] n = none := rfl

theorem lookupEntry_cons (e : Str × FsTree) (es : List (Str × FsTree))
    (n : Str) :
    lookupEntry (e :: es) n =
      if e.1 == n then some e.2 else lookupEntry es n := by
  unfold lookupEntry
  rw [List.find?_cons]
  split <;> simp_all

theorem lookupEntry_append_left {es1 : List (Str × FsTree)} {n : Str}
    {t : FsTree} (h : lookupEntry es1 n = some t)
    (es2 : List (Str × FsTree)) :
    lookupEntry (es1 ++ es2) n = some t := by
  induction es1 with
  | nil => rw [lookupEntry_nil] at h; cases h
  | cons e rest ih =>
    rw [lookupEntry_cons] at h
    rw [List.cons_append, lookupEntry_cons]
    split at h
    · rw [if_pos (by assumption)]
      exact h
    · rw [if_neg (by assumption)]
      exact ih h

theorem lookupEntry_append_right {es1 : List (Str × FsTree)} {n : Str}
    (h : lookupEntry es1 n = none) (es2 : List (Str × FsTree)) :
    lookupEntry (es1 ++ es2) n = lookupEntry es2 n := by
  induction es1 with
  | nil => rfl
  | cons e rest ih =>
    rw [lookupEntry_cons] at h
    rw [List.cons_append, lookupEntry_cons]
    split at h
    · cases h
    · rw [if_neg (by assumption)]
      exact ih h

theorem lookupEntry_singleton_eq (n : Str) (t : FsTree) :
    lookupEntry [(n, t)] n = some t := by
  rw [lookupEntry_cons]
  simp

theorem lookupEntry_singleton_ne {m n : Str} (t : FsTree) (h : m ≠ n) :
    lookupEntry [(m, t)] n = none := by
  rw [lookupEntry_cons]
  rw [if_neg (by simpa using h)]
  rfl

theorem lookupEntry_replace_ne {es : List (Str × FsTree)} {m n : Str}
    (t : FsTree) (h : n ≠ m) :
    lookupEntry (replaceEntry es m t) n = lookupEntry es n := by
  induction es with
  | nil => rfl
  | cons e rest ih =>
    obtain ⟨en, et⟩ := e
    unfold replaceEntry
    rw [List.map_cons]
    by_cases he : en = m
    · rw [show ((if (en, et).1 == m then ((en, et).1, t) else (en, et)) :
        Str × FsTree) = (en, t) from by simp [he]]
      rw [lookupEntry_cons, lookupEntry_cons]
      rw [if_neg (by simp; intro hc; exact h (hc ▸ he)),
        if_neg (by simp; intro hc; exact h (hc ▸ he))]
      exact ih
    · rw [show ((if (en, et).1 == m then ((en, et).1, t) else (en, et)) :
        Str × FsTree) = (en, et) from by simp [he]]
      rw [lookupEntry_cons, lookupEntry_cons]
      split
      · rfl
      · exact ih

theorem lookupEntry_replace_eq {es : List (Str × FsTree)} {m : Str}
    {t0 : FsTree} (t : FsTree) (h : lookupEntry es m = some t0) :
    lookupEntry (replaceEntry es m t) m = some t := by
  induction es with
  | nil => rw [lookupEntry_nil] at h; cases h
  | cons e rest ih =>
    obtain ⟨en, et⟩ := e
    rw [lookupEntry_cons] at h
    unfold replaceEntry
    rw [List.map_cons]
    by_cases he : en = m
    · rw [show ((if (en, et).1 == m then ((en, et).1, t) else (en, et)) :
        Str × FsTree) = (en, t) from by simp [he]]
      rw [lookupEntry_cons, if_pos (by simpa using he)]
    · rw [show ((if (en, et).1 == m then ((en, et).1, t) else (en, et)) :
        Str × FsTree) = (en, et) from by simp [he]]
      rw [lookupEntry_cons, if_neg (by simpa using he)]
      rw [if_neg (by simpa using he)] at h
      exact ih h

theorem lookupEntry_none_forall {es : List (Str × FsTree)} {n : Str}
    (h : lookupEntry es n = none) : ∀ e ∈ es, e.1 ≠ n := by
  intro e he
  induction es with
  | nil => cases he
  | cons e2 rest ih =>
    rw [lookupEntry_cons] at h
    split at h
    · cases h
    · rcases List.mem_cons.1 he with h1 | h1
      · subst h1
        simpa using (by assumption : ¬ (e.1 == n) = true)
      · exact ih h h1

theorem renameEntry_cancel :
    ∀ {es : List (Str × FsTree)} {old mid : Str},
      lookupEntry es mid = none →
      renameEntry (renameEntry es old mid) mid old = es := by
  intro es
  induction es with
  | nil => intro old mid _; rfl
  | cons e rest ih =>
    intro old mid hfresh
    obtain ⟨en, et⟩ := e
    rw [lookupEntry_cons] at hfresh
    have hmid : ¬ (en == mid) = true := by
      intro hc
      rw [show ((en, et).1 == mid) = (en == mid) from rfl] at hfresh
      rw [if_pos hc] at hfresh
      cases hfresh
    rw [if_neg (by simpa using hmid)] at hfresh
    have htail := @ih old mid hfresh
    unfold renameEntry at htail ⊢
    rw [List.map_cons, List.map_cons, htail]
    congr 1
    by_cases he : en = old
    · simp [he]
    · simp [he, (by simpa using hmid : en ≠ mid)]

theorem lookupEntry_rename_ne {es : List (Str × FsTree)} {old new n : Str}
    (h1 : n ≠ old) (h2 : n ≠ new) :
    lookupEntry (renameEntry es old new) n = lookupEntry es n := by
  induction es with
  | nil => rfl
  | cons e rest ih =>
    obtain ⟨en, et⟩ := e
    unfold renameEntry
    rw [List.map_cons]
    by_cases he : en = old
    · rw [show ((if (en, et).1 == old then (new, (en, et).2) else (en, et)) :
        Str × FsTree) = (new, et) from by simp [he]]
      rw [lookupEntry_cons, lookupEntry_cons]
      rw [if_neg (by simp; exact fun hc => h2 hc.symm),
        if_neg (by simp; intro hc; exact h1 (hc ▸ he))]
      exact ih
    · rw [show ((if (en, et).1 == old then (new, (en, et).2) else (en, et)) :
        Str × FsTree) = (en, et) from by simp [he]]
      rw [lookupEntry_cons, lookupEntry_cons]
      split
      · rfl
      · exact ih

theorem existsEntry_replace (es : List (Str × FsTree)) (m n : Str)
    (t : FsTree) :
    existsEntry (replaceEntry es m t) n = existsEntry es n := by
  by_cases h : n = m
  · subst h
    unfold existsEntry
    cases hl : lookupEntry es n with
    | none =>
      have hall := lookupEntry_none_forall hl
      have : lookupEntry (replaceEntry es n t) n = none := by
        cases hl2 : lookupEntry (replaceEntry es n t) n with
        | none => rfl
        | some t2 =>
          exfalso
          unfold lookupEntry at hl2
          cases hf : List.find? (fun e => e.1 == n) (replaceEntry es n t) with
          | none => rw [hf] at hl2; cases hl2
          | some e2 =>
            have hmem := List.mem_of_find?_eq_some hf
            have hpred := List.find?_some hf
            unfold replaceEntry at hmem
            obtain ⟨e3, he3, he3e⟩ := List.mem_map.1 hmem
            have hne3 := hall e3 he3
            by_cases hc : e3.1 = n
            · exact hne3 hc
            · rw [if_neg (by simpa using hc)] at he3e
              subst he3e
              exact hc (by simpa using hpred)
      rw [this]
    | some t0 =>
      rw [lookupEntry_replace_eq t hl]
      rfl
  · unfold existsEntry
    rw [lookupEntry_replace_ne t h]

theorem mergeGoF_keeps_dst_file :
    ∀ (fuel : Nat) {src dst out : List (Str × FsTree)} {n : Str} {c : Str},
      mergeGoF fuel src dst = some out →
      lookupEntry dst n = some (FsTree.file c) →
      lookupEntry out n = some (FsTree.file c) := by
  intro fuel
  induction fuel with
  | zero =>
    intro src dst out n c h _
    exact Option.noConfusion
      (show (none : Option (List (Str × FsTree))) = some out from h)
  | succ k ih =>
    intro src dst out n c h hdst
    cases src with
    | nil =>
      have hout := Option.some.inj (show some dst = some out from h)
      rw [← hout]
      exact hdst
    | cons e rest =>
      obtain ⟨m, t⟩ := e
      cases t with
      | file c2 =>
        rw [show mergeGoF (k + 1) ((m, FsTree.file c2) :: rest) dst =
            (match lookupEntry dst m with
            | some _ => mergeGoF k rest dst
            | none => mergeGoF k rest (dst ++ [(m, FsTree.file c2)])) from
          rfl] at h
        cases hl : lookupEntry dst m with
        | some t2 =>
          rw [hl] at h
          exact ih h hdst
        | none =>
          rw [hl] at h
          exact ih h (lookupEntry_append_left hdst _)
      | dir sub =>
        rw [show mergeGoF (k + 1) ((m, FsTree.dir sub) :: rest) dst =
            (match lookupEntry dst m with
            | some (FsTree.file _) => none
            | some (FsTree.dir dsub) =>
              (match mergeGoF k (sortEntries sub) dsub with
              | none => none
              | some merged =>
                mergeGoF k rest (replaceEntry dst m (FsTree.dir merged)))
            | none =>
              (match mergeGoF k (sortEntries sub) [] with
              | none => none
              | some copied =>
                mergeGoF k rest (dst ++ [(m, FsTree.dir copied)]))) from
          rfl] at h
        cases hl : lookupEntry dst m with
        | some t2 =>
          cases t2 with
          | file c3 =>
            rw [hl] at h
            cases h
          | dir dsub =>
            rw [hl] at h
            dsimp only at h
            cases hm : mergeGoF k (sortEntries sub) dsub with
            | none =>
              rw [hm] at h
              cases h
            | some merged =>
              rw [hm] at h
              have hnm : n ≠ m := by
                intro he
                subst he
                rw [hdst] at hl
                cases hl
              exact ih h (by
                rw [lookupEntry_replace_ne _ hnm]
                exact hdst)
        | none =>
          rw [hl] at h
          dsimp only at h
          cases hm : mergeGoF k (sortEntries sub) [] with
          | none =>
            rw [hm] at h
            cases h
          | some copied =>
            rw [hm] at h
            exact ih h (lookupEntry_append_left hdst _)

theorem mergeGoF_adds_src_file :
    ∀ (fuel : Nat) {src dst out : List (Str × FsTree)} {n : Str} {c : Str},
      mergeGoF fuel src dst = some out →
      (src.map Prod.fst).Nodup →
      (n, FsTree.file c) ∈ src →
      lookupEntry dst n = none →
      lookupEntry out n = some (FsTree.file c) := by
  intro fuel
  induction fuel with
  | zero =>
    intro src dst out n c h _ _ _
    exact Option.noConfusion
      (show (none : Option (List (Str × FsTree))) = some out from h)
  | succ k ih =>
    intro src dst out n c h hnd hmem hdst
    cases src with
    | nil => cases hmem
    | cons e rest =>
      obtain ⟨m, t⟩ := e
      rw [List.map_cons, List.nodup_cons] at hnd
      rcases List.mem_cons.1 hmem with hhead | hrest
      · have hm2 : m = n := congrArg Prod.fst hhead.symm
        have ht2 : t = FsTree.file c := congrArg Prod.snd hhead.symm
        subst hm2
        subst ht2
        rw [show mergeGoF (k + 1) ((m, FsTree.file c) :: rest) dst =
            (match lookupEntry dst m with
            | some _ => mergeGoF k rest dst
            | none => mergeGoF k rest (dst ++ [(m, FsTree.file c)])) from
          rfl] at h
        rw [hdst] at h
        exact mergeGoF_keeps_dst_file k h (by
          rw [lookupEntry_append_right hdst]
          exact lookupEntry_singleton_eq _ _)
      · have hnm : m ≠ n := by
          intro he
          apply hnd.1
          have hin : n ∈ List.map Prod.fst rest :=
            List.mem_map_of_mem Prod.fst hrest
          rw [he]
          exact hin
        cases t with
        | file c2 =>
          rw [show mergeGoF (k + 1) ((m, FsTree.file c2) :: rest) dst =
              (match lookupEntry dst m with
              | some _ => mergeGoF k rest dst
              | none => mergeGoF k rest (dst ++ [(m, FsTree.file c2)])) from
            rfl] at h
          cases hl : lookupEntry dst m with
          | some t2 =>
            rw [hl] at h
            exact ih h hnd.2 hrest hdst
          | none =>
            rw [hl] at h
            exact ih h hnd.2 hrest (by
              rw [lookupEntry_append_right hdst]
              exact lookupEntry_singleton_ne _ hnm)
        | dir sub =>
          rw [show mergeGoF (k + 1) ((m, FsTree.dir sub) :: rest) dst =
              (match lookupEntry dst m with
              | some (FsTree.file _) => none
              | some (FsTree.dir dsub) =>
                (match mergeGoF k (sortEntries sub) dsub with
                | none => none
                | some merged =>
                  mergeGoF k rest (replaceEntry dst m (FsTree.dir merged)))
              | none =>
                (match mergeGoF k (sortEntries sub) [] with
                | none => none
                | some copied =>
                  mergeGoF k rest (dst ++ [(m, FsTree.dir copied)]))) from
            rfl] at h
          cases hl : lookupEntry dst m with
          | some t2 =>
            cases t2 with
            | file c3 =>
              rw [hl] at h
              cases h
            | dir dsub =>
              rw [hl] at h
              dsimp only at h
              cases hm : mergeGoF k (sortEntries sub) dsub with
              | none =>
                rw [hm] at h
                cases h
              | some merged =>
                rw [hm] at h
                exact ih h hnd.2 hrest (by
                  rw [lookupEntry_replace_ne _ (fun he => hnm he.symm)]
                  exact hdst)
          | none =>
            rw [hl] at h
            dsimp only at h
            cases hm : mergeGoF k (sortEntries sub) [] with
            | none =>
              rw [hm] at h
              cases h
            | some copied =>
              rw [hm] at h
              exact ih h hnd.2 hrest (by
                rw [lookupEntry_append_right hdst]
                exact lookupEntry_singleton_ne _ hnm)

theorem mergeEntries_keeps_dst_file {src dst out : List (Str × FsTree)}
    {n : Str} {c : Str} (h : mergeEntries src dst = some out)
    (hdst : lookupEntry dst n = some (FsTree.file c)) :
    lookupEntry out n = some (FsTree.file c) :=
  mergeGoF_keeps_dst_file _ h hdst

theorem mergeEntries_adds_src_file {src dst out : List (Str × FsTree)}
    {n : Str} {c : Str} (h : mergeEntries src dst = some out)
    (hnd : (src.map Prod.fst).Nodup)
    (hmem : (n, FsTree.file c) ∈ src)
    (hdst : lookupEntry dst n = none) :
    lookupEntry out n = some (FsTree.file c) := by
  refine mergeGoF_adds_src_file _ h ?_ ?_ hdst
  · exact (((sortEntries_perm src).map Prod.fst).nodup_iff).2 hnd
  · exact ((sortEntries_perm src).mem_iff).2 hmem

theorem temp_name_ne_cur (cur : Str) : cur ++ strD "_temp_rename" ≠ cur := by
  intro h
  have := congrArg List.length h
  simp [strD] at this

theorem temp_name_ne_lower (cur : Str) :
    toLowerStr cur ≠ cur ++ strD "_temp_rename" := by
  intro h
  have := congrArg List.length h
  simp [toLowerStr, strD] at this

theorem renameSingle_collision_eq {st : List (Str × FsTree)} {cur : Str}
    {lsub csub merged : List (Str × FsTree)}
    (hne : cur ≠ toLowerStr cur)
    (hl : lookupEntry st (toLowerStr cur) = some (FsTree.dir lsub))
    (hc : lookupEntry st cur = some (FsTree.dir csub))
    (hm : mergeEntries lsub csub = some merged)
    (htemp : lookupEntry st (cur ++ strD "_temp_rename") = none) :
    renameSingleDirectoryToLowercase st cur =
      (replaceEntry st cur (FsTree.dir merged), true) := by
  have hlowcur : toLowerStr cur ≠ cur := fun h => hne h.symm
  have htne : cur ++ strD "_temp_rename" ≠ cur := temp_name_ne_cur cur
  have hlnt : toLowerStr cur ≠ cur ++ strD "_temp_rename" :=
    temp_name_ne_lower cur
  unfold renameSingleDirectoryToLowercase
  simp only [if_neg hne, hl, hc, hm]
  unfold renameSingleDirectoryToLowercase.renamePhases
  have hex1 : existsEntry (replaceEntry st cur (FsTree.dir merged)) cur = true := by
    unfold existsEntry
    rw [lookupEntry_replace_eq _ hc]
    rfl
  rw [if_neg (fun hcon => hcon hex1)]
  have hex2 : existsEntry (replaceEntry st cur (FsTree.dir merged))
      (cur ++ strD "_temp_rename") = false := by
    unfold existsEntry
    rw [lookupEntry_replace_ne _ htne, htemp]
    rfl
  rw [if_neg (by rw [hex2]; simp)]
  have hex3 : existsEntry
      (renameEntry (replaceEntry st cur (FsTree.dir merged)) cur
        (cur ++ strD "_temp_rename")) (toLowerStr cur) = true := by
    unfold existsEntry
    rw [lookupEntry_rename_ne hlowcur hlnt,
      lookupEntry_replace_ne _ hlowcur, hl]
    rfl
  rw [if_pos (by rw [hex3])]
  rw [renameEntry_cancel (by
    rw [lookupEntry_replace_ne _ htne]
    exact htemp)]

/-- C4 (amended): the merge runs in the opposite direction from the
claim.  mergeDirectories(src, dst) is called with the already-existing
canonical-named directory as SOURCE and the currently-processed
directory as DESTINATION, so the canonical directory's contents are
copied into the current one.  First conjunct: a destination (current)
file is never overwritten — same-named source files are skipped.
Second conjunct: every source (canonical) file whose name is absent
from the destination is copied across.  Third conjunct: the
canonical-named directory itself is left untouched by the collision
handling of renameSingleDirectoryToLowercase. -/
theorem claim_C4_amended :
    (∀ (src dst out : List (Str × FsTree)) (n c : Str),
      mergeEntries src dst = some out →
      lookupEntry dst n = some (FsTree.file c) →
      lookupEntry out n = some (FsTree.file c)) ∧
    (∀ (src dst out : List (Str × FsTree)) (n c : Str),
      mergeEntries src dst = some out →
      (src.map Prod.fst).Nodup →
      (n, FsTree.file c) ∈ src →
      lookupEntry dst n = none →
      lookupEntry out n = some (FsTree.file c)) ∧
    (∀ (st : List (Str × FsTree)) (cur : Str)
      (lsub csub merged : List (Str × FsTree)),
      cur ≠ toLowerStr cur →
      lookupEntry st (toLowerStr cur) = some (FsTree.dir lsub) →
      lookupEntry st cur = some (FsTree.dir csub) →
      mergeEntries lsub csub = some merged →
      lookupEntry st (cur ++ strD "_temp_rename") = none →
      lookupEntry (renameSingleDirectoryToLowercase st cur).1
        (toLowerStr cur) = some (FsTree.dir lsub)) := by
  refine ⟨fun src dst out n c h hdst => mergeEntries_keeps_dst_file h hdst,
    fun src dst out n c h hnd hmem hdst =>
      mergeEntries_adds_src_file h hnd hmem hdst, ?_⟩
  intro st cur lsub csub merged hne hl hc hm htemp
  rw [renameSingle_collision_eq hne hl hc hm htemp]
  show lookupEntry (replaceEntry st cur (FsTree.dir merged))
    (toLowerStr cur) = some (FsTree.dir lsub)
  rw [lookupEntry_replace_ne _ (fun h => hne h.symm), hl]

/-- Witness for the amended C4: a merge where the destination keeps its
own a.txt and gains the source's c.txt, and a DD/dd collision where the
canonical dd keeps its subtree. -/
theorem claim_C4_amended_witness :
    lookupEntry [(strD "a.txt", FsTree.file (strD "OLD")),
        (strD "c.txt", FsTree.file (strD "C"))] (strD "a.txt") =
      some (FsTree.file (strD "OLD")) ∧
    lookupEntry [(strD "a.txt", FsTree.file (strD "OLD")),
        (strD "c.txt", FsTree.file (strD "C"))] (strD "c.txt") =
      some (FsTree.file (strD "C")) ∧
    lookupEntry (renameSingleDirectoryToLowercase
        [(strD "DD", FsTree.dir [(strD "a.md", FsTree.file (strD "A"))]),
         (strD "dd", FsTree.dir [(strD "b.md", FsTree.file (strD "B"))])]
        (strD "DD")).1 (strD "dd") =
      some (FsTree.dir [(strD "b.md", FsTree.file (strD "B"))]) :=
  ⟨claim_C4_amended.1
      [(strD "a.txt", FsTree.file (strD "NEW")),
        (strD "c.txt", FsTree.file (strD "C"))]
      [(strD "a.txt", FsTree.file (strD "OLD"))] _ _ _
      (by decide) (by decide),
   claim_C4_amended.2.1
      [(strD "a.txt", FsTree.file (strD "NEW")),
        (strD "c.txt", FsTree.file (strD "C"))]
      [(strD "a.txt", FsTree.file (strD "OLD"))] _ _ _
      (by decide) (by decide) (by decide) (by decide),
   claim_C4_amended.2.2 _ _
      [(strD "b.md", FsTree.file (strD "B"))]
      [(strD "a.md", FsTree.file (strD "A"))]
      [(strD "a.md", FsTree.file (strD "A")),
        (strD "b.md", FsTree.file (strD "B"))]
      (by decide) (by decide) (by decide) (by decide) (by decide)⟩

/-- C5 (amended): when phase two of the two-phase rename fails (the
lowercase name still exists), the rollback restores the ORIGINAL NAME,
the error is reported, and processing continues — but the directory is
not left exactly in its pre-rename state: its contents have already
been augmented by the preceding merge.  First conjunct: in the
collision case the final state is exactly the original state with the
current directory's tree replaced by the merged tree, under its
original name, with the error flag set.  Second conjunct: the
per-directory loop always continues with the remaining names. -/
theorem claim_C5_amended :
    (∀ (st : List (Str × FsTree)) (cur : Str)
      (lsub csub merged : List (Str × FsTree)),
      cur ≠ toLowerStr cur →
      lookupEntry st (toLowerStr cur) = some (FsTree.dir lsub) →
      lookupEntry st cur = some (FsTree.dir csub) →
      mergeEntries lsub csub = some merged →
      lookupEntry st (cur ++ strD "_temp_rename") = none →
      renameSingleDirectoryToLowercase st cur =
        (replaceEntry st cur (FsTree.dir merged), true) ∧
      lookupEntry (renameSingleDirectoryToLowercase st cur).1 cur =
        some (FsTree.dir merged)) ∧
    (∀ (st : List (Str × FsTree)) (n : Str) (rest : List Str),
      processDirectories st (n :: rest) =
        processDirectories (renameSingleDirectoryToLowercase st n).1 rest) := by
  constructor
  · intro st cur lsub csub merged hne hl hc hm htemp
    have heq := renameSingle_collision_eq hne hl hc hm htemp
    refine ⟨heq, ?_⟩
    rw [heq]
    exact lookupEntry_replace_eq _ hc
  · intro st n rest
    rfl

/-- Witness for the amended C5: the DD/dd collision ends with an error
flag, DD still named DD but holding the merged entries, and the loop
equation at a concrete state. -/
theorem claim_C5_amended_witness :
    (renameSingleDirectoryToLowercase
        [(strD "DD", FsTree.dir [(strD "a.md", FsTree.file (strD "A"))]),
         (strD "dd", FsTree.dir [(strD "b.md", FsTree.file (strD "B"))])]
        (strD "DD") =
      (replaceEntry
        [(strD "DD", FsTree.dir [(strD "a.md", FsTree.file (strD "A"))]),
         (strD "dd", FsTree.dir [(strD "b.md", FsTree.file (strD "B"))])]
        (strD "DD")
        (FsTree.dir [(strD "a.md", FsTree.file (strD "A")),
          (strD "b.md", FsTree.file (strD "B"))]), true) ∧
    lookupEntry (renameSingleDirectoryToLowercase
        [(strD "DD", FsTree.dir [(strD "a.md", FsTree.file (strD "A"))]),
         (strD "dd", FsTree.dir [(strD "b.md", FsTree.file (strD "B"))])]
        (strD "DD")).1 (strD "DD") =
      some (FsTree.dir [(strD "a.md", FsTree.file (strD "A")),
        (strD "b.md", FsTree.file (strD "B"))])) ∧
    processDirectories [] (strD "a" :: []) =
      processDirectories
        (renameSingleDirectoryToLowercase [] (strD "a")).1 [] :=
  ⟨claim_C5_amended.1 _ _
      [(strD "b.md", FsTree.file (strD "B"))]
      [(strD "a.md", FsTree.file (strD "A"))]
      [(strD "a.md", FsTree.file (strD "A")),
        (strD "b.md", FsTree.file (strD "B"))]
      (by decide) (by decide) (by decide) (by decide) (by decide),
   claim_C5_amended.2 [] (strD "a") []⟩

/-! ### C4 and C5: counterexamples -/

/-- Counterexample to C4: the claim says the current directory's
contents are merged into the existing canonical-named directory.  On
the state with current directory DIR = [a.txt=OLD, b.txt=B] and
canonical directory dir = [a.txt=A, c.txt=C], the code instead copies
the canonical directory's entries into DIR (keeping DIR's a.txt=OLD on
conflict) and leaves the canonical directory exactly as it was: dir
never receives b.txt, contradicting "copying every file and
subdirectory across" into the canonical directory. -/
theorem claim_C4_counterexample :
    (renameSingleDirectoryToLowercase
      [(strD "DIR", FsTree.dir
          [(strD "a.txt", FsTree.file (strD "OLD")),
           (strD "b.txt", FsTree.file (strD "B"))]),
       (strD "dir", FsTree.dir
          [(strD "a.txt", FsTree.file (strD "A")),
           (strD "c.txt", FsTree.file (strD "C"))])]
      (strD "DIR")).1 =
      [(strD "DIR", FsTree.dir
          [(strD "a.txt", FsTree.file (strD "OLD")),
           (strD "b.txt", FsTree.file (strD "B")),
           (strD "c.txt", FsTree.file (strD "C"))]),
       (strD "dir", FsTree.dir
          [(strD "a.txt", FsTree.file (strD "A")),
           (strD "c.txt", FsTree.file (strD "C"))])] ∧
    lookupEntry
      (renameSingleDirectoryToLowercase
        [(strD "DIR", FsTree.dir
            [(strD "a.txt", FsTree.file (strD "OLD")),
             (strD "b.txt", FsTree.file (strD "B"))]),
         (strD "dir", FsTree.dir
            [(strD "a.txt", FsTree.file (strD "A")),
             (strD "c.txt", FsTree.file (strD "C"))])]
        (strD "DIR")).1 (strD "dir") ≠
      some (FsTree.dir
        [(strD "a.txt", FsTree.file (strD "A")),
         (strD "c.txt", FsTree.file (strD "C")),
         (strD "b.txt", FsTree.file (strD "B"))]) := by
  constructor <;> decide

/-- Counterexample to C5: on a collision state, phase two of the
two-phase rename fails, the rollback restores the original name DIR
and the error is reported — but the directory contents are not its
pre-rename contents: the preceding merge copied c.txt into it, so DIR
is not "left exactly in its pre-rename state". -/
theorem claim_C5_counterexample :
    (renameSingleDirectoryToLowercase
      [(strD "UP", FsTree.dir [(strD "x.md", FsTree.file (strD "X"))]),
       (strD "up", FsTree.dir [(strD "y.md", FsTree.file (strD "Y"))])]
      (strD "UP")).2 = true ∧
    lookupEntry
      (renameSingleDirectoryToLowercase
        [(strD "UP", FsTree.dir [(strD "x.md", FsTree.file (strD "X"))]),
         (strD "up", FsTree.dir [(strD "y.md", FsTree.file (strD "Y"))])]
        (strD "UP")).1 (strD "UP") =
      some (FsTree.dir
        [(strD "x.md", FsTree.file (strD "X")),
         (strD "y.md", FsTree.file (strD "Y"))]) ∧
    lookupEntry
      [(strD "UP", FsTree.dir [(strD "x.md", FsTree.file (strD "X"))]),
       (strD "up", FsTree.dir [(strD "y.md", FsTree.file (strD "Y"))])]
      (strD "UP") ≠
      some (FsTree.dir
        [(strD "x.md", FsTree.file (strD "X")),
         (strD "y.md", FsTree.file (strD "Y"))]) := by
  refine ⟨by decide, by decide, by decide⟩

end Html2Md
